import Mathlib

/-!
Verification of the sqlbon repository's analysis/receipt logic against its
natural-language specification.  The Rust sources under `src/` are shallowly
embedded: pure functions become Lean functions, message handlers become
explicit state-passing step functions, and the external SQLite/rusqlite
interface is abstracted as an oracle record whose answers the handlers
consume.  Machine integers (`i64`, `u32`) are modelled as `Int`/`Nat`; none of
the embedded code performs wrapping arithmetic on them, they are only carried
around and compared.
-/

set_option maxRecDepth 4096

/-! ## Column types (src/analysis.rs) -/

/-- `ColumnType` from src/analysis.rs: the declared type of a query column. -/
inductive ColumnType where
  | string
  | number
  | date
deriving DecidableEq, Repr

/-- `impl From<ColumnType> for u32` (src/analysis.rs): the combo-box encoding. -/
def ColumnType.toU32 : ColumnType → Nat
  | .string => 0
  | .number => 1
  | .date => 2

/-- `NumberOutOfRange` error payload (src/analysis.rs). -/
structure NumberOutOfRange where
  val : Nat
deriving DecidableEq, Repr

/-- `impl TryFrom<u32> for ColumnType` (src/analysis.rs). -/
def ColumnType.tryFromU32 : Nat → Except NumberOutOfRange ColumnType
  | 0 => .ok .string
  | 1 => .ok .number
  | 2 => .ok .date
  | other => .error ⟨other⟩

/-- `impl Display for ColumnType` (src/analysis.rs). -/
def ColumnType.display : ColumnType → String
  | .string => "String"
  | .number => "Number"
  | .date => "Date"

/-- `ColumnTypeValue` from src/analysis.rs: a typed input or result cell.
`i64` is modelled as `Int`. -/
inductive ColumnTypeValue where
  | string (s : String)
  | number (n : Int)
  | date (d : String)
deriving DecidableEq, Repr

/-- `ColumnTypeValue::is_column_type` (src/analysis.rs). -/
def ColumnTypeValue.is_column_type : ColumnTypeValue → ColumnType → Bool
  | .string _, ty => ty = ColumnType.string
  | .number _, ty => ty = ColumnType.number
  | .date _, ty => ty = ColumnType.date

/-- `impl From<ColumnType> for ColumnTypeValue` (src/analysis.rs).  The `Date`
arm reads the current local date (`DateTime::now_local().format("%F")`); that
external clock value is passed in as the `today` parameter. -/
def ColumnType.defaultValue (today : String) : ColumnType → ColumnTypeValue
  | .string => .string ""
  | .number => .number 0
  | .date => .date today

/-! ## NameStatus state machine (src/main.rs) -/

/-- `NameStatus` from src/main.rs: validity state of a text entry that also
needs a database connection before its Add button may be enabled. -/
inductive NameStatus where
  | valid
  | nonEmpty
  | connected
  | invalid
deriving DecidableEq, Repr

/-- `NameStatus::connect` (src/main.rs). -/
def NameStatus.connect : NameStatus → NameStatus
  | .valid => .valid
  | .nonEmpty => .valid
  | .connected => .connected
  | .invalid => .connected

/-- `NameStatus::name_non_empty` (src/main.rs). -/
def NameStatus.name_non_empty : NameStatus → NameStatus
  | .valid => .valid
  | .nonEmpty => .nonEmpty
  | .connected => .valid
  | .invalid => .nonEmpty

/-- `NameStatus.name_empty` (src/main.rs). -/
def NameStatus.name_empty : NameStatus → NameStatus
  | .valid => .connected
  | .nonEmpty => .invalid
  | .connected => .connected
  | .invalid => .invalid

/-- The three operations App::update applies to a `NameStatus` field:
`connect` on a successful database connection (Msg::ConnectDb and init),
`name_non_empty` / `name_empty` from the Validate* messages. -/
inductive NameOp where
  | connect
  | nameNonEmpty
  | nameEmpty
deriving DecidableEq, Repr

/-- Apply one operation to a `NameStatus`. -/
def NameStatus.applyOp (s : NameStatus) : NameOp → NameStatus
  | .connect => s.connect
  | .nameNonEmpty => s.name_non_empty
  | .nameEmpty => s.name_empty

/-- Run a sequence of operations from a starting status. -/
def NameStatus.runOps (s : NameStatus) (ops : List NameOp) : NameStatus :=
  ops.foldl NameStatus.applyOp s

/-- Whether a status records that a connection has occurred. -/
def NameStatus.isConnected : NameStatus → Bool
  | .valid => true
  | .connected => true
  | .nonEmpty => false
  | .invalid => false

/-- Whether a status records that the entry is currently non-empty. -/
def NameStatus.nameBit : NameStatus → Bool
  | .valid => true
  | .nonEmpty => true
  | .connected => false
  | .invalid => false

/-- Rebuild a status from its (connected, non-empty) bits. -/
def NameStatus.ofBits : Bool → Bool → NameStatus
  | true, true => .valid
  | true, false => .connected
  | false, true => .nonEmpty
  | false, false => .invalid

/-- The most recent name operation in a sequence, as `some true` for
`name_non_empty`, `some false` for `name_empty`, `none` if there is none. -/
def lastNameOp (ops : List NameOp) : Option Bool :=
  ops.foldl
    (fun acc op =>
      match op with
      | .connect => acc
      | .nameNonEmpty => some true
      | .nameEmpty => some false)
    none

lemma NameStatus.ofBits_isConnected (c n : Bool) :
    (NameStatus.ofBits c n).isConnected = c := by
  cases c <;> cases n <;> rfl

lemma NameStatus.ofBits_nameBit (c n : Bool) :
    (NameStatus.ofBits c n).nameBit = n := by
  cases c <;> cases n <;> rfl

lemma NameStatus.ofBits_eta (s : NameStatus) :
    NameStatus.ofBits s.isConnected s.nameBit = s := by
  cases s <;> rfl

lemma NameStatus.applyOp_bits (s : NameStatus) (op : NameOp) :
    s.applyOp op =
      NameStatus.ofBits
        (s.isConnected || (op = NameOp.connect : Bool))
        (match op with
          | .connect => s.nameBit
          | .nameNonEmpty => true
          | .nameEmpty => false) := by
  cases s <;> cases op <;> rfl

lemma lastNameOp_foldl_some (rest : List NameOp) (b d : Bool) :
    (rest.foldl
      (fun acc o =>
        match o with
        | NameOp.connect => acc
        | NameOp.nameNonEmpty => some true
        | NameOp.nameEmpty => some false)
      (some b)).getD d =
    (rest.foldl
      (fun acc o =>
        match o with
        | NameOp.connect => acc
        | NameOp.nameNonEmpty => some true
        | NameOp.nameEmpty => some false)
      none).getD b := by
  induction rest generalizing b d with
  | nil => rfl
  | cons o rs ihr =>
      cases o with
      | connect => simpa using ihr b d
      | nameNonEmpty =>
          simp only [List.foldl_cons]
          rw [ihr true d, ihr true b]
      | nameEmpty =>
          simp only [List.foldl_cons]
          rw [ihr false d, ihr false b]

/-- Full characterization: after running `ops` from `Invalid`, the status is
`ofBits (connect occurred) (last name op was non_empty, initially false)`. -/
lemma NameStatus.runOps_eq (ops : List NameOp) :
    NameStatus.runOps .invalid ops =
      NameStatus.ofBits (decide (NameOp.connect ∈ ops))
        ((lastNameOp ops).getD false) := by
  suffices h : ∀ (l : List NameOp) (s : NameStatus),
      NameStatus.runOps s l =
        NameStatus.ofBits (s.isConnected || decide (NameOp.connect ∈ l))
          ((l.foldl
            (fun acc op =>
              match op with
              | NameOp.connect => acc
              | NameOp.nameNonEmpty => some true
              | NameOp.nameEmpty => some false)
            none).getD s.nameBit) by
    have := h ops .invalid
    simpa [NameStatus.runOps, NameStatus.isConnected, NameStatus.nameBit,
      lastNameOp] using this
  intro l
  induction l with
  | nil =>
      intro s
      simp [NameStatus.runOps, NameStatus.ofBits_eta]
  | cons op rest ih =>
      intro s
      have hstep := NameStatus.applyOp_bits s op
      cases op with
      | connect =>
          have hrun : NameStatus.runOps s (NameOp.connect :: rest) =
              NameStatus.runOps (s.applyOp .connect) rest := rfl
          rw [hrun, ih]
          simp [hstep, NameStatus.ofBits_isConnected, NameStatus.ofBits_nameBit,
            List.mem_cons, Bool.or_assoc, Bool.or_comm]
      | nameNonEmpty =>
          have hrun : NameStatus.runOps s (NameOp.nameNonEmpty :: rest) =
              NameStatus.runOps (s.applyOp .nameNonEmpty) rest := rfl
          rw [hrun, ih]
          simp only [hstep, NameStatus.ofBits_isConnected, NameStatus.ofBits_nameBit,
            List.foldl_cons, List.mem_cons]
          rw [lastNameOp_foldl_some rest true s.nameBit]
          simp
      | nameEmpty =>
          have hrun : NameStatus.runOps s (NameOp.nameEmpty :: rest) =
              NameStatus.runOps (s.applyOp .nameEmpty) rest := rfl
          rw [hrun, ih]
          simp only [hstep, NameStatus.ofBits_isConnected, NameStatus.ofBits_nameBit,
            List.foldl_cons, List.mem_cons]
          rw [lastNameOp_foldl_some rest false s.nameBit]
          simp

/-! ## Claim C9 -/

/-- C9: for every `ColumnType` `ty`, `try_from(u32::from(ty))` returns
`Ok(ty)`, and for every `n ≥ 3`, `try_from(n)` returns
`Err(NumberOutOfRange(n))`: the `u32` encoding round-trips exactly on
`{0, 1, 2}`. -/
theorem columnType_u32_roundtrip :
    (∀ ty : ColumnType, ColumnType.tryFromU32 ty.toU32 = .ok ty) ∧
    (∀ n : Nat, 3 ≤ n → ColumnType.tryFromU32 n = .error ⟨n⟩) := by
  constructor
  · intro ty; cases ty <;> rfl
  · intro n hn
    match n, hn with
    | (m + 3), _ => rfl

theorem columnType_u32_roundtrip_witness :
    ColumnType.tryFromU32 7 = .error ⟨7⟩ :=
  columnType_u32_roundtrip.2 7 (by norm_num)

/-! ## Claim C8 -/

/-- C8: starting from `NameStatus::Invalid`, under every sequence of
`connect`, `name_non_empty` and `name_empty`: the status is `Valid` or
`Connected` only if a `connect` occurred; the set `{Valid, Connected}` is
closed under all three operations; and the status is `Valid` iff a `connect`
occurred and the most recent name operation was `name_non_empty`. -/
theorem nameStatus_invariants (ops : List NameOp) :
    ((NameStatus.runOps .invalid ops = .valid ∨
      NameStatus.runOps .invalid ops = .connected) →
        NameOp.connect ∈ ops) ∧
    (∀ (s : NameStatus) (op : NameOp),
      (s = .valid ∨ s = .connected) →
        (s.applyOp op = .valid ∨ s.applyOp op = .connected)) ∧
    (NameStatus.runOps .invalid ops = .valid ↔
      NameOp.connect ∈ ops ∧ lastNameOp ops = some true) := by
  refine ⟨?_, ?_, ?_⟩
  · intro h
    rw [NameStatus.runOps_eq] at h
    by_contra hmem
    rcases h with h | h <;>
      cases hops : (lastNameOp ops).getD false <;>
        simp [NameStatus.ofBits, hmem, hops] at h
  · intro s op hs
    rcases hs with rfl | rfl <;> cases op <;> simp [NameStatus.applyOp,
      NameStatus.connect, NameStatus.name_non_empty, NameStatus.name_empty]
  · rw [NameStatus.runOps_eq]
    constructor
    · intro h
      by_cases hmem : NameOp.connect ∈ ops
      · refine ⟨hmem, ?_⟩
        cases hops : lastNameOp ops with
        | none => simp [NameStatus.ofBits, hmem, hops] at h
        | some b =>
            cases b
            · simp [NameStatus.ofBits, hmem, hops] at h
            · rfl
      · cases hops : (lastNameOp ops).getD false <;>
          simp [NameStatus.ofBits, hmem, hops] at h
    · rintro ⟨hmem, hlast⟩
      simp [NameStatus.ofBits, hmem, hlast]

theorem nameStatus_invariants_witness :
    NameStatus.runOps .invalid [NameOp.nameNonEmpty, NameOp.connect] = .valid :=
  (nameStatus_invariants [NameOp.nameNonEmpty, NameOp.connect]).2.2.mpr
    ⟨by decide, by decide⟩

/-! ## Query persistence (src/analysis.rs: save_queries / read_queries)

`save_queries` serializes a `Vec<(String, Query)>` with serde_json; the
`RowEntry::id` field is `#[serde(skip)]`, so it is absent from the file and
comes back as `usize::default()` (0) on parse.  The JSON transport itself
(serde derive on these plain data types) is modelled as a faithful pair: the
file content is represented by the serialized shape, with `id` stripped. -/

/-- `RowEntry` from src/analysis.rs. -/
structure RowEntry where
  name : String
  ty : ColumnType
  id : Nat
deriving DecidableEq, Repr

/-- `Query` from src/analysis.rs (`RowData` is its `Vec<RowEntry>` content). -/
structure Query where
  sql : String
  table_header : List RowEntry
  query_input : List RowEntry
deriving DecidableEq, Repr

/-- The on-disk shape of one row entry: `id` is `#[serde(skip)]`ped. -/
structure SerRowEntry where
  name : String
  ty : ColumnType
deriving DecidableEq, Repr

/-- The on-disk shape of one query. -/
structure SerQuery where
  sql : String
  table_header : List SerRowEntry
  query_input : List SerRowEntry
deriving DecidableEq, Repr

/-- `save_queries` (src/analysis.rs): writes the queries as JSON; modelled as
producing the serialized shape, which drops every row's `id`. -/
def save_queries (qs : List (String × Query)) : List (String × SerQuery) :=
  qs.map fun p =>
    (p.1,
      { sql := p.2.sql
        table_header := p.2.table_header.map fun r => ⟨r.name, r.ty⟩
        query_input := p.2.query_input.map fun r => ⟨r.name, r.ty⟩ })

/-- The id-reassignment loop of `read_queries`: a counter starting at `i`
walks the list and stores its value into each row's `id`. -/
def reassignIds : List RowEntry → Nat → List RowEntry
  | [], _ => []
  | r :: rs, i => { r with id := i } :: reassignIds rs (i + 1)

/-- `read_queries` (src/analysis.rs): parses the file (skipped `id` fields
deserialize to the default 0) and then reassigns each row's `id` to its
position in its list, counting from 0. -/
def read_queries (d : List (String × SerQuery)) : List (String × Query) :=
  d.map fun p =>
    (p.1,
      { sql := p.2.sql
        table_header :=
          reassignIds (p.2.table_header.map fun r => ⟨r.name, r.ty, 0⟩) 0
        query_input :=
          reassignIds (p.2.query_input.map fun r => ⟨r.name, r.ty, 0⟩) 0 })

lemma reassignIds_strip (l : List RowEntry) (i : Nat) :
    reassignIds ((l.map fun r => SerRowEntry.mk r.name r.ty).map
        fun r => RowEntry.mk r.name r.ty 0) i =
      reassignIds l i := by
  induction l generalizing i with
  | nil => rfl
  | cons r rs ih =>
      simp only [List.map_cons, reassignIds]
      exact congrArg₂ List.cons rfl (ih (i + 1))

/-! ## Claim C5 -/

/-- C5: `read_queries` after `save_queries` returns the same query names, SQL
strings, and table_header / query_input column names and types, with each
row's `id` (skipped during serialization) reassigned to its position in its
list counting from 0 — i.e. the round trip is exactly `reassignIds · 0`
applied to both row lists of every query. -/
theorem read_after_save_queries (qs : List (String × Query)) :
    read_queries (save_queries qs) =
      qs.map fun p =>
        (p.1,
          { sql := p.2.sql
            table_header := reassignIds p.2.table_header 0
            query_input := reassignIds p.2.query_input 0 }) := by
  unfold read_queries save_queries
  rw [List.map_map]
  refine List.map_congr_left ?_
  intro p _
  simp only [Function.comp_apply]
  rw [reassignIds_strip, reassignIds_strip]

/-! ## Dynamic query execution (src/analysis.rs: Analysis::exec_query)

The SQLite connection is abstracted as an oracle (`Conn`): `prepare` may
reject the SQL, `query` receives the bound named parameters and either fails
or yields the result rows (each cell a raw SQLite value); statement column
names are a lookup function.  Row stepping errors (`rows.next()`) are folded
into the `query` oracle's error answer.  Decoding cells (`row.get`) follows
rusqlite's `FromSql` for `String` / `i64`: only `Text` converts to a string,
only `Integer` to an `i64`; anything else is an `InvalidColumnType` error and
an out-of-range index an `InvalidColumnIndex` error. -/

/-- A raw SQLite value in a result row (`Real` carries no payload since the
embedded code never reads one). -/
inductive SqlValue where
  | null
  | integer (n : Int)
  | real
  | text (s : String)
  | blob
deriving DecidableEq, Repr

/-- `rusqlite::types::Type` of a raw value. -/
inductive RType where
  | null
  | integer
  | real
  | text
  | blob
deriving DecidableEq, Repr

/-- The SQLite type tag of a value (`ValueRef::data_type`). -/
def SqlValue.dataType : SqlValue → RType
  | .null => .null
  | .integer _ => .integer
  | .real => .real
  | .text _ => .text
  | .blob => .blob

/-- The `rusqlite::Error` variants distinguished by
`impl From<ExecQueryErrConv> for String` (src/analysis.rs); every variant the
repository does not inspect is collapsed into `other`. -/
inductive RError where
  | fromSqlConversionFailure (idx : Nat) (expected : RType)
  | invalidColumnType (idx : Nat) (name : String) (expected : RType)
  | invalidParameterName (param : String)
  | invalidColumnIndex (idx : Nat)
  | invalidQuery
  | multipleStatement
  | other
deriving DecidableEq, Repr

/-- `ExecQueryErrConv` (src/analysis.rs). -/
structure ExecQueryErrConv where
  err : RError
  given_type : ColumnType
  failed_name : String
deriving DecidableEq, Repr

/-- `ExecQueryErrConv::new` (src/analysis.rs). -/
def ExecQueryErrConv.new (given_type : ColumnType) (failed_name : String)
    (err : RError) : ExecQueryErrConv :=
  ⟨err, given_type, failed_name⟩

/-- `ExecQueryErrConv::empty` (src/analysis.rs). -/
def ExecQueryErrConv.empty (err : RError) : ExecQueryErrConv :=
  ⟨err, .string, ""⟩

/-- The `conversion_failure` closure inside
`impl From<ExecQueryErrConv> for String` (src/analysis.rs). -/
def conversionFailure (c : ExecQueryErrConv) (column_idx : Nat)
    (expected_type : RType) (sql_column_name : String) : String :=
  let expected := if expected_type = RType.integer then "Number" else "String/Text"
  "Mismatch between the output type '" ++ c.failed_name ++ "' (at " ++
    toString column_idx ++ ") and the query column type for '" ++
    sql_column_name ++ "': column type: `" ++ c.given_type.display ++
    "` <-> query type `" ++ expected ++ "`"

/-- `impl From<ExecQueryErrConv> for String` (src/analysis.rs). -/
def execQueryErrString (c : ExecQueryErrConv) : String :=
  match c.err with
  | .fromSqlConversionFailure idx expected =>
      conversionFailure c idx expected "<unknown>"
  | .invalidColumnType idx name expected =>
      conversionFailure c idx expected name
  | .invalidParameterName p =>
      "The query did not expected to receive a parameter '" ++ p ++ "'."
  | .invalidColumnIndex _ =>
      "The query has less columns than the amount of given output types."
  | .invalidQuery => "The Query is invalid."
  | .multipleStatement =>
      "The query contains multiple statements. Only one is allowed"
  | .other => "Unknown error"

/-- The abstract SQLite connection consumed by `Analysis::exec_query`. -/
structure Conn where
  prepare : String → Except RError Unit
  colNames : Nat → String
  query : List (String × ColumnTypeValue) → Except RError (List (List SqlValue))

/-- `row.get::<_, String>(i)` on a result row, following rusqlite. -/
def rowGetText (colNames : Nat → String) (row : List SqlValue) (i : Nat) :
    Except RError String :=
  match row[i]? with
  | none => .error (.invalidColumnIndex i)
  | some (.text s) => .ok s
  | some v => .error (.invalidColumnType i (colNames i) v.dataType)

/-- `row.get::<_, i64>(i)` on a result row, following rusqlite. -/
def rowGetI64 (colNames : Nat → String) (row : List SqlValue) (i : Nat) :
    Except RError Int :=
  match row[i]? with
  | none => .error (.invalidColumnIndex i)
  | some (.integer n) => .ok n
  | some v => .error (.invalidColumnType i (colNames i) v.dataType)

/-- `String::insert(0, ':')` applied to a parameter name
(src/analysis.rs, the `for (n, _) in &mut input_data` loop). -/
def insertColon (s : String) : String :=
  ⟨':' :: s.data⟩

/-- The inner `for (i, row_entry) in query.table_header.0.iter().enumerate()`
loop of `exec_query`: decode one result row cell by cell against the declared
header types, converting errors through `ExecQueryErrConv::new`. -/
def decodeRowLoop (colNames : Nat → String) (row : List SqlValue) :
    List RowEntry → Nat → Except String (List ColumnTypeValue)
  | [], _ => .ok []
  | re :: rest, i =>
    match re.ty with
    | .string =>
      match rowGetText colNames row i with
      | .error e => .error (execQueryErrString (ExecQueryErrConv.new .string re.name e))
      | .ok s =>
        match decodeRowLoop colNames row rest (i + 1) with
        | .error msg => .error msg
        | .ok vs => .ok (.string s :: vs)
    | .number =>
      match rowGetI64 colNames row i with
      | .error e => .error (execQueryErrString (ExecQueryErrConv.new .number re.name e))
      | .ok n =>
        match decodeRowLoop colNames row rest (i + 1) with
        | .error msg => .error msg
        | .ok vs => .ok (.number n :: vs)
    | .date =>
      match rowGetText colNames row i with
      | .error e => .error (execQueryErrString (ExecQueryErrConv.new .date re.name e))
      | .ok s =>
        match decodeRowLoop colNames row rest (i + 1) with
        | .error msg => .error msg
        | .ok vs => .ok (.date s :: vs)

/-- The `while let Some(row) = rows.next()` loop of `exec_query`: decode every
result row, appending one `ListStore` row per SQL row. -/
def decodeRows (colNames : Nat → String) (hdr : List RowEntry) :
    List (List SqlValue) → Except String (List (List ColumnTypeValue))
  | [] => .ok []
  | row :: rows =>
    match decodeRowLoop colNames row hdr 0 with
    | .error msg => .error msg
    | .ok vs =>
      match decodeRows colNames hdr rows with
      | .error msg => .error msg
      | .ok rest => .ok (vs :: rest)

/-- `Data` (src/analysis.rs): the populated `ListStore` (modelled as its row
contents) together with the id of the executed query. -/
structure ExecData where
  store : List (List ColumnTypeValue)
  query_id : Nat
deriving DecidableEq, Repr

namespace Analysis

/-- `Analysis::exec_query` (src/analysis.rs): prepare the SQL, bind every
input value as a named parameter (`':'` inserted at position 0 of the column
name), run the statement, and decode each result row against `table_header`. -/
def exec_query (conn : Conn) (query_id : Nat) (q : Query)
    (input_data : List (String × ColumnTypeValue)) : Except String ExecData :=
  match conn.prepare q.sql with
  | .error e => .error (execQueryErrString (ExecQueryErrConv.empty e))
  | .ok _ =>
    match conn.query (input_data.map fun p => (insertColon p.1, p.2)) with
    | .error e => .error (execQueryErrString (ExecQueryErrConv.empty e))
    | .ok rows =>
      match decodeRows conn.colNames q.table_header rows with
      | .error msg => .error msg
      | .ok store => .ok ⟨store, query_id⟩

end Analysis

/-- The `Analysis` component's tracked state, restricted to the fields the
`PopulateModel` handler touches (src/analysis.rs). -/
structure AnalysisState where
  analysis : Option ExecData
  queries : List (String × Query)
  conn : Option Conn
  query_error : String

/-- The `AnalysisMsg::PopulateModel(id)` arm of `Analysis::update`
(src/analysis.rs), with the input-values component's current values passed in
as `iv`. -/
def populateModel (iv : List (String × ColumnTypeValue)) (s : AnalysisState)
    (id : Nat) : AnalysisState :=
  match s.conn, s.queries[id]? with
  | some conn, some (_, q) =>
    match Analysis.exec_query conn id q iv with
    | .ok d => { s with analysis := some d, query_error := "" }
    | .error e => { s with query_error := e }
  | some _, none => s
  | none, _ => s

/-! Specification-side decoding, written from the claim's words: a `String`
or `Date` column is read as SQL text, a `Number` column as a 64-bit
integer. -/

/-- Read a raw cell as text (spec side). -/
def readAsText : SqlValue → Option String
  | .text s => some s
  | _ => none

/-- Read a raw cell as a 64-bit integer (spec side). -/
def readAsI64 : SqlValue → Option Int
  | .integer n => some n
  | _ => none

/-- Decode one cell according to a declared column type (spec side). -/
def specDecodeCell (ty : ColumnType) (cell : SqlValue) : Option ColumnTypeValue :=
  match ty with
  | .string => (readAsText cell).map .string
  | .date => (readAsText cell).map .date
  | .number => (readAsI64 cell).map .number

/-- Decode one result row against the header, cell `i` of the row for header
entry `i` (spec side). -/
def specDecodeRow (row : List SqlValue) : List RowEntry → Nat → Option (List ColumnTypeValue)
  | [], _ => some []
  | re :: rest, i => do
      let cell ← row[i]?
      let v ← specDecodeCell re.ty cell
      let vs ← specDecodeRow row rest (i + 1)
      pure (v :: vs)

/-- Decode all result rows (spec side). -/
def specDecodeRows (hdr : List RowEntry) : List (List SqlValue) →
    Option (List (List ColumnTypeValue))
  | [] => some []
  | row :: rows => do
      let v ← specDecodeRow row hdr 0
      let vs ← specDecodeRows hdr rows
      pure (v :: vs)

lemma decodeRowLoop_ok_iff (cn : Nat → String) (row : List SqlValue) :
    ∀ (hdr : List RowEntry) (i : Nat) (vs : List ColumnTypeValue),
      decodeRowLoop cn row hdr i = .ok vs ↔ specDecodeRow row hdr i = some vs := by
  intro hdr
  induction hdr with
  | nil =>
      intro i vs
      simp [decodeRowLoop, specDecodeRow]
  | cons re rest ih =>
      intro i vs
      have htail : ∀ vs',
          decodeRowLoop cn row rest (i + 1) = .ok vs' ↔
            specDecodeRow row rest (i + 1) = some vs' := fun vs' => ih (i + 1) vs'
      have hboth : ∀ (mk : ColumnTypeValue),
          (match decodeRowLoop cn row rest (i + 1) with
            | .error msg => (.error msg : Except String (List ColumnTypeValue))
            | .ok vs' => .ok (mk :: vs')) = .ok vs ↔
          ((specDecodeRow row rest (i + 1)).bind
            fun vs' => some (mk :: vs')) = some vs := by
        intro mk
        cases hd : decodeRowLoop cn row rest (i + 1) with
        | error m =>
            cases hs : specDecodeRow row rest (i + 1) with
            | none => simp
            | some vs' => exact absurd ((htail vs').mpr hs) (by simp [hd])
        | ok vs' =>
            have hs := (htail vs').mp hd
            simp [hs]
      cases hty : re.ty with
      | string =>
          cases hget : row[i]? with
          | none =>
              simp [decodeRowLoop, specDecodeRow, hty, rowGetText, hget]
          | some cell =>
              cases cell <;>
                simp only [decodeRowLoop, specDecodeRow, hty, rowGetText, hget,
                  specDecodeCell, readAsText, Option.map_none, Option.map_some,
                  Option.bind_eq_bind, Option.some_bind, Option.none_bind] <;>
                first
                | exact hboth _
                | simp
      | number =>
          cases hget : row[i]? with
          | none =>
              simp [decodeRowLoop, specDecodeRow, hty, rowGetI64, hget]
          | some cell =>
              cases cell <;>
                simp only [decodeRowLoop, specDecodeRow, hty, rowGetI64, hget,
                  specDecodeCell, readAsI64, Option.map_none, Option.map_some,
                  Option.bind_eq_bind, Option.some_bind, Option.none_bind] <;>
                first
                | exact hboth _
                | simp
      | date =>
          cases hget : row[i]? with
          | none =>
              simp [decodeRowLoop, specDecodeRow, hty, rowGetText, hget]
          | some cell =>
              cases cell <;>
                simp only [decodeRowLoop, specDecodeRow, hty, rowGetText, hget,
                  specDecodeCell, readAsText, Option.map_none, Option.map_some,
                  Option.bind_eq_bind, Option.some_bind, Option.none_bind] <;>
                first
                | exact hboth _
                | simp

lemma decodeRowLoop_none_iff (cn : Nat → String) (row : List SqlValue)
    (hdr : List RowEntry) (i : Nat) :
    specDecodeRow row hdr i = none ↔
      ∃ m, decodeRowLoop cn row hdr i = .error m := by
  cases hd : decodeRowLoop cn row hdr i with
  | error m =>
      refine ⟨fun _ => ⟨m, rfl⟩, fun _ => ?_⟩
      cases hs : specDecodeRow row hdr i with
      | none => rfl
      | some vs =>
          have hcontra := (decodeRowLoop_ok_iff cn row hdr i vs).mpr hs
          rw [hd] at hcontra
          exact Except.noConfusion hcontra
  | ok vs =>
      have hs := (decodeRowLoop_ok_iff cn row hdr i vs).mp hd
      simp [hs]

lemma decodeRowLoop_err_shape (cn : Nat → String) (row : List SqlValue) :
    ∀ (hdr : List RowEntry) (i : Nat) (m : String),
      decodeRowLoop cn row hdr i = .error m →
        ∃ e : ExecQueryErrConv, m = execQueryErrString e := by
  intro hdr
  induction hdr with
  | nil => intro i m h; simp [decodeRowLoop] at h
  | cons re rest ih =>
      intro i m h
      cases hty : re.ty
      case string =>
        simp only [decodeRowLoop, hty] at h
        cases hg : rowGetText cn row i with
        | error e =>
            simp only [hg, Except.error.injEq] at h
            exact ⟨ExecQueryErrConv.new .string re.name e, h.symm⟩
        | ok s =>
            simp only [hg] at h
            cases hd : decodeRowLoop cn row rest (i + 1) with
            | error msg2 =>
                simp only [hd, Except.error.injEq] at h
                exact h ▸ ih (i + 1) msg2 hd
            | ok vs => simp [hd] at h
      case number =>
        simp only [decodeRowLoop, hty] at h
        cases hg : rowGetI64 cn row i with
        | error e =>
            simp only [hg, Except.error.injEq] at h
            exact ⟨ExecQueryErrConv.new .number re.name e, h.symm⟩
        | ok s =>
            simp only [hg] at h
            cases hd : decodeRowLoop cn row rest (i + 1) with
            | error msg2 =>
                simp only [hd, Except.error.injEq] at h
                exact h ▸ ih (i + 1) msg2 hd
            | ok vs => simp [hd] at h
      case date =>
        simp only [decodeRowLoop, hty] at h
        cases hg : rowGetText cn row i with
        | error e =>
            simp only [hg, Except.error.injEq] at h
            exact ⟨ExecQueryErrConv.new .date re.name e, h.symm⟩
        | ok s =>
            simp only [hg] at h
            cases hd : decodeRowLoop cn row rest (i + 1) with
            | error msg2 =>
                simp only [hd, Except.error.injEq] at h
                exact h ▸ ih (i + 1) msg2 hd
            | ok vs => simp [hd] at h

lemma decodeRows_ok_iff (cn : Nat → String) (hdr : List RowEntry) :
    ∀ (rows : List (List SqlValue)) (store : List (List ColumnTypeValue)),
      decodeRows cn hdr rows = .ok store ↔ specDecodeRows hdr rows = some store := by
  intro rows
  induction rows with
  | nil => intro store; simp [decodeRows, specDecodeRows]
  | cons row rest ih =>
      intro store
      simp only [decodeRows, specDecodeRows, Option.bind_eq_bind]
      cases hd : decodeRowLoop cn row hdr 0 with
      | error m =>
          have hs : specDecodeRow row hdr 0 = none :=
            (decodeRowLoop_none_iff cn row hdr 0).mpr ⟨m, hd⟩
          simp [hs]
      | ok vs =>
          have hs := (decodeRowLoop_ok_iff cn row hdr 0 vs).mp hd
          rw [hs]
          simp only [Option.some_bind]
          cases hr : decodeRows cn hdr rest with
          | error m =>
              have hrs : specDecodeRows hdr rest = none := by
                cases hrs : specDecodeRows hdr rest with
                | none => rfl
                | some st =>
                    have hcontra := (ih st).mpr hrs
                    rw [hr] at hcontra
                    exact Except.noConfusion hcontra
              simp [hrs]
          | ok st =>
              have hrs := (ih st).mp hr
              rw [hrs]
              simp

lemma decodeRows_err_exists (cn : Nat → String) (hdr : List RowEntry) :
    ∀ (rows : List (List SqlValue)) (m : String),
      decodeRows cn hdr rows = .error m →
        (∃ row ∈ rows, specDecodeRow row hdr 0 = none) ∧
        (∃ e : ExecQueryErrConv, m = execQueryErrString e) := by
  intro rows
  induction rows with
  | nil => intro m h; simp [decodeRows] at h
  | cons row rest ih =>
      intro m h
      simp only [decodeRows] at h
      cases hd : decodeRowLoop cn row hdr 0 with
      | error msg2 =>
          simp only [hd, Except.error.injEq] at h
          refine ⟨⟨row, List.mem_cons_self _ _, ?_⟩, h ▸ decodeRowLoop_err_shape cn row hdr 0 msg2 hd⟩
          exact (decodeRowLoop_none_iff cn row hdr 0).mpr ⟨msg2, hd⟩
      | ok vs =>
          simp only [hd] at h
          cases hr : decodeRows cn hdr rest with
          | error msg2 =>
              simp only [hr, Except.error.injEq] at h
              obtain ⟨⟨r, hrmem, hrnone⟩, hshape⟩ := ih msg2 hr
              exact ⟨⟨r, List.mem_cons_of_mem _ hrmem, hrnone⟩, h ▸ hshape⟩
          | ok st => simp [hr] at h

lemma specDecodeRows_some_forall (hdr : List RowEntry) :
    ∀ (rows : List (List SqlValue)) (store : List (List ColumnTypeValue)),
      specDecodeRows hdr rows = some store →
        (∀ row ∈ rows, specDecodeRow row hdr 0 ≠ none) ∧
        store.length = rows.length := by
  intro rows
  induction rows with
  | nil =>
      intro store h
      simp only [specDecodeRows, Option.some.injEq] at h
      simp [← h]
  | cons row rest ih =>
      intro store h
      simp only [specDecodeRows, Option.bind_eq_bind] at h
      cases hs : specDecodeRow row hdr 0 with
      | none => rw [hs] at h; exact Option.noConfusion h
      | some vs =>
          rw [hs] at h
          simp only [Option.some_bind] at h
          cases hrs : specDecodeRows hdr rest with
          | none => rw [hrs] at h; exact Option.noConfusion h
          | some st =>
              rw [hrs] at h
              have h' : vs :: st = store := by simpa using h
              obtain ⟨hall, hlen⟩ := ih st hrs
              constructor
              · intro r hr
                rcases List.mem_cons.mp hr with rfl | hr
                · simp [hs]
                · exact hall r hr
              · rw [← h']
                simp [hlen]

lemma specDecodeRows_all_some (hdr : List RowEntry) :
    ∀ (rows : List (List SqlValue)),
      (∀ row ∈ rows, specDecodeRow row hdr 0 ≠ none) →
        ∃ store, specDecodeRows hdr rows = some store := by
  intro rows
  induction rows with
  | nil => intro _; exact ⟨[], rfl⟩
  | cons row rest ih =>
      intro hall
      obtain ⟨st, hst⟩ := ih fun r hr => hall r (List.mem_cons_of_mem _ hr)
      cases hs : specDecodeRow row hdr 0 with
      | none => exact absurd hs (hall row (List.mem_cons_self _ _))
      | some vs =>
          exact ⟨vs :: st, by simp [specDecodeRows, hs, hst]⟩

/-! ## Claims C1 and C2 -/

/-- C1: `Analysis::exec_query` returns `Err` exactly when preparing the SQL
statement, running it, or converting a result cell to the declared column
type fails, and every error is rendered through
`From<ExecQueryErrConv> for String` as a descriptive message; and the
`AnalysisMsg::PopulateModel` handler, on `Err`, leaves the stored analysis
result unchanged and only sets `query_error` to the message, while on `Ok`
it replaces the analysis result and clears `query_error`. -/
theorem exec_query_error_behavior :
    (∀ (conn : Conn) (qid : Nat) (q : Query)
        (input : List (String × ColumnTypeValue)),
      (∃ d, Analysis.exec_query conn qid q input = .ok d) ↔
        ((∃ u, conn.prepare q.sql = .ok u) ∧
          ∃ rows,
            conn.query (input.map fun p => (insertColon p.1, p.2)) = .ok rows ∧
            ∀ row ∈ rows, specDecodeRow row q.table_header 0 ≠ none)) ∧
    (∀ (conn : Conn) (qid : Nat) (q : Query)
        (input : List (String × ColumnTypeValue)) (msg : String),
      Analysis.exec_query conn qid q input = .error msg →
        ∃ e : ExecQueryErrConv, msg = execQueryErrString e) ∧
    (∀ (iv : List (String × ColumnTypeValue)) (st : AnalysisState) (id : Nat)
        (conn : Conn) (nm : String) (q : Query),
      st.conn = some conn → st.queries[id]? = some (nm, q) →
        (∀ d, Analysis.exec_query conn id q iv = .ok d →
          populateModel iv st id =
            { st with analysis := some d, query_error := "" }) ∧
        (∀ msg, Analysis.exec_query conn id q iv = .error msg →
          (populateModel iv st id).analysis = st.analysis ∧
          (populateModel iv st id).query_error = msg)) := by
  refine ⟨?_, ?_, ?_⟩
  · intro conn qid q input
    cases hp : conn.prepare q.sql with
    | error e =>
        simp only [Analysis.exec_query, hp]
        constructor
        · rintro ⟨d, hd⟩
          exact Except.noConfusion hd
        · rintro ⟨⟨u, hu⟩, -⟩
          exact Except.noConfusion hu
    | ok u =>
        simp only [Analysis.exec_query, hp]
        cases hq : conn.query (input.map fun p => (insertColon p.1, p.2)) with
        | error e =>
            simp only [hq]
            constructor
            · rintro ⟨d, hd⟩
              exact Except.noConfusion hd
            · rintro ⟨-, rows, hrows, -⟩
              exact Except.noConfusion hrows
        | ok rows =>
            simp only [hq]
            cases hd : decodeRows conn.colNames q.table_header rows with
            | error m =>
                simp only [hd]
                constructor
                · rintro ⟨d, hcontra⟩
                  exact Except.noConfusion hcontra
                · rintro ⟨-, rows2, hrows2, hall⟩
                  injection hrows2 with hr2
                  subst hr2
                  obtain ⟨⟨r, hrmem, hrnone⟩, -⟩ :=
                    decodeRows_err_exists conn.colNames q.table_header rows m hd
                  exact absurd hrnone (hall r hrmem)
            | ok store =>
                simp only [hd]
                constructor
                · intro _
                  refine ⟨?_, rows, rfl,
                    (specDecodeRows_some_forall q.table_header rows store
                      ((decodeRows_ok_iff conn.colNames q.table_header rows store).mp hd)).1⟩
                  simp
                · intro _
                  exact ⟨⟨store, qid⟩, rfl⟩
  · intro conn qid q input msg h
    cases hp : conn.prepare q.sql with
    | error e =>
        simp only [Analysis.exec_query, hp, Except.error.injEq] at h
        exact ⟨ExecQueryErrConv.empty e, h.symm⟩
    | ok u =>
        simp only [Analysis.exec_query, hp] at h
        cases hq : conn.query (input.map fun p => (insertColon p.1, p.2)) with
        | error e =>
            simp only [hq, Except.error.injEq] at h
            exact ⟨ExecQueryErrConv.empty e, h.symm⟩
        | ok rows =>
            simp only [hq] at h
            cases hd : decodeRows conn.colNames q.table_header rows with
            | error m =>
                simp only [hd, Except.error.injEq] at h
                exact h ▸ (decodeRows_err_exists conn.colNames q.table_header rows m hd).2
            | ok store =>
                simp only [hd] at h
                exact Except.noConfusion h
  · intro iv st id conn nm q hconn hqid
    constructor
    · intro d hok
      simp [populateModel, hconn, hqid, hok]
    · intro msg herr
      simp [populateModel, hconn, hqid, herr]

/-- Connection whose `prepare` rejects the SQL, for exercising the error
path of `exec_query`. -/
def badConn : Conn :=
  { prepare := fun _ => .error .invalidQuery
    colNames := fun _ => ""
    query := fun _ => .error .other }

/-- A query with one Number output column. -/
def numQuery : Query :=
  { sql := "SELECT x FROM t", table_header := [⟨"x", .number, 0⟩], query_input := [] }

theorem exec_query_error_behavior_witness :
    (populateModel []
        { analysis := some ⟨[[ColumnTypeValue.number 9]], 0⟩
          queries := [("q", numQuery)]
          conn := some badConn
          query_error := "" } 0).analysis =
      some ⟨[[ColumnTypeValue.number 9]], 0⟩ ∧
    (populateModel []
        { analysis := some ⟨[[ColumnTypeValue.number 9]], 0⟩
          queries := [("q", numQuery)]
          conn := some badConn
          query_error := "" } 0).query_error = "The Query is invalid." :=
  (exec_query_error_behavior.2.2 []
      { analysis := some ⟨[[ColumnTypeValue.number 9]], 0⟩
        queries := [("q", numQuery)]
        conn := some badConn
        query_error := "" } 0 badConn "q" numQuery rfl rfl).2
    "The Query is invalid." rfl

/-- C2: `exec_query` binds every supplied input value as a named parameter
whose name is the input's column name with `':'` inserted at position 0, in
the order given, and decodes each result row by the query's `table_header`
(String/Date as text, Number as 64-bit integer), one `ListStore` row per SQL
result row. -/
theorem exec_query_binding_and_decoding :
    ∀ (conn : Conn) (qid : Nat) (q : Query)
      (input : List (String × ColumnTypeValue)) (d : ExecData),
      Analysis.exec_query conn qid q input = .ok d →
        ∃ rows,
          conn.query (input.map fun p => (⟨':' :: p.1.data⟩, p.2)) = .ok rows ∧
          specDecodeRows q.table_header rows = some d.store ∧
          d.store.length = rows.length ∧
          d.query_id = qid := by
  intro conn qid q input d h
  cases hp : conn.prepare q.sql with
  | error e =>
      simp only [Analysis.exec_query, hp] at h
      exact Except.noConfusion h
  | ok u =>
      simp only [Analysis.exec_query, hp] at h
      cases hq : conn.query (input.map fun p => (insertColon p.1, p.2)) with
      | error e =>
          simp only [hq] at h
          exact Except.noConfusion h
      | ok rows =>
          simp only [hq] at h
          cases hd : decodeRows conn.colNames q.table_header rows with
          | error m =>
              simp only [hd] at h
              exact Except.noConfusion h
          | ok store =>
              simp only [hd] at h
              injection h with h
              refine ⟨rows, hq, ?_, ?_, ?_⟩
              · rw [← h]
                exact (decodeRows_ok_iff conn.colNames q.table_header rows store).mp hd
              · rw [← h]
                exact (specDecodeRows_some_forall q.table_header rows store
                  ((decodeRows_ok_iff conn.colNames q.table_header rows store).mp hd)).2
              · rw [← h]

/-- Connection answering two Number rows, for exercising the success path. -/
def twoRowConn : Conn :=
  { prepare := fun _ => .ok ()
    colNames := fun _ => "x"
    query := fun _ => .ok [[.integer 3], [.integer 4]] }

theorem exec_query_binding_and_decoding_witness :
    ∃ rows,
      twoRowConn.query
        ([("a", ColumnTypeValue.string "v")].map fun p => (⟨':' :: p.1.data⟩, p.2)) =
          .ok rows ∧
      specDecodeRows numQuery.table_header rows =
        some (ExecData.mk [[ColumnTypeValue.number 3], [ColumnTypeValue.number 4]] 7).store ∧
      (ExecData.mk [[ColumnTypeValue.number 3], [ColumnTypeValue.number 4]] 7).store.length =
        rows.length ∧
      (ExecData.mk [[ColumnTypeValue.number 3], [ColumnTypeValue.number 4]] 7).query_id = 7 :=
  exec_query_binding_and_decoding twoRowConn 7 numQuery
    [("a", ColumnTypeValue.string "v")]
    (ExecData.mk [[ColumnTypeValue.number 3], [ColumnTypeValue.number 4]] 7) rfl

/-! ## Input values component (src/analysis/input_values.rs)

`InputValue` keeps one displayed factory row per input column of the shown
query (`values`), a per-query-name cache of previously entered values
(`data`, a `HashMap` modelled as a lookup function), and the name of the
query currently shown (`show`, a Lean keyword, here `shown`).  The only
message is `Replicate(name, row_data)`. -/

/-- The tracked fields of one displayed `Value` factory row. -/
structure IVEntry where
  name : String
  value : ColumnTypeValue
deriving DecidableEq, Repr

/-- `InputValue` (src/analysis/input_values.rs). -/
structure InputValue where
  data : String → Option (List ColumnTypeValue)
  values : List IVEntry
  shown : String

/-- `row_data.0.sort_by_key(|row_entry| row_entry.id)` — a stable sort by
column id (Rust `sort_by_key` is stable, as is `mergeSort`). -/
def sortById (l : List RowEntry) : List RowEntry :=
  l.mergeSort fun a b => a.id ≤ b.id

/-- The `v_ty` computation of the `Occupied` branch (src/analysis/input_values.rs):
reuse the saved value at index `row_entry.id` only when it
`is_column_type`-matches the column's current type, else the type's default. -/
def ivValueOf (today : String) (old_data : List ColumnTypeValue) (re : RowEntry) :
    ColumnTypeValue :=
  match old_data[re.id]? with
  | some value =>
      if value.is_column_type re.ty then value else re.ty.defaultValue today
  | none => re.ty.defaultValue today

/-- The `Occupied` branch's enumerate loop: overwrite the displayed row at
position `i` while `i < current_len`, push a new row afterwards. -/
def occApply (today : String) (old_data : List ColumnTypeValue) (curLen : Nat) :
    List IVEntry → List RowEntry → Nat → List IVEntry
  | v, [], _ => v
  | v, re :: rest, i =>
      occApply today old_data curLen
        (if i < curLen then v.set i ⟨re.name, ivValueOf today old_data re⟩
          else v ++ [⟨re.name, ivValueOf today old_data re⟩])
        rest (i + 1)

/-- The trailing `for _ in row_len..current_len { v.pop_back() }` loop. -/
def popBackN : List IVEntry → Nat → List IVEntry
  | v, 0 => v
  | v, k + 1 => popBackN v.dropLast k

/-- `InputValue::update` on `InputValueMsg::Replicate(name, row_data)`
(src/analysis/input_values.rs).  The current values are saved under the
previously shown name first; then the cache entry for `name` decides the
`Vacant` / `Occupied` branch.  `today` abstracts the `Date` default's clock
read. -/
def InputValue.update (today : String) (s : InputValue) (name : String)
    (row_data : List RowEntry) : InputValue :=
  let old_name := s.shown
  let data1 : String → Option (List ColumnTypeValue) :=
    fun k => if k = old_name then some (s.values.map IVEntry.value) else s.data k
  match data1 name with
  | none =>
      let sorted := sortById row_data
      let values := sorted.map fun re => re.ty.defaultValue today
      { data := fun k => if k = name then some values else data1 k
        values := sorted.map fun re => ⟨re.name, re.ty.defaultValue today⟩
        shown := name }
  | some old_data =>
      let sorted := sortById row_data
      let current_len := s.values.length
      let v1 := occApply today old_data current_len s.values sorted 0
      let values := sorted.map fun re => ivValueOf today old_data re
      { data := fun k => if k = name then some values else data1 k
        values := popBackN v1 (current_len - sorted.length)
        shown := name }

/-- The value the claim predicts for a column (spec side): a previously saved
value is reused only when it matches the column's current type, otherwise the
type's default. -/
def specExpectedValue (today : String) (saved : Option (List ColumnTypeValue))
    (re : RowEntry) : ColumnTypeValue :=
  match saved with
  | none => re.ty.defaultValue today
  | some old =>
      match old[re.id]? with
      | some v => if v.is_column_type re.ty then v else re.ty.defaultValue today
      | none => re.ty.defaultValue today

lemma defaultValue_is_column_type (today : String) (ty : ColumnType) :
    (ty.defaultValue today).is_column_type ty = true := by
  cases ty <;> rfl

lemma specExpectedValue_is_column_type (today : String)
    (saved : Option (List ColumnTypeValue)) (re : RowEntry) :
    (specExpectedValue today saved re).is_column_type re.ty = true := by
  cases saved with
  | none => simp [specExpectedValue, defaultValue_is_column_type]
  | some old =>
      simp only [specExpectedValue]
      cases hold : old[re.id]? with
      | none => simp [defaultValue_is_column_type]
      | some v =>
          by_cases hv : v.is_column_type re.ty = true
          · simp [hv]
          · simp [hv, defaultValue_is_column_type]

lemma popBackN_eq_take (l : List IVEntry) (k : Nat) :
    popBackN l k = l.take (l.length - k) := by
  induction k generalizing l with
  | zero => simp [popBackN]
  | succ k ih =>
      simp only [popBackN, ih, List.dropLast_eq_take, List.take_take,
        List.length_take, List.length_dropLast]
      congr 1
      omega

lemma occApply_spec (today : String) (old_data : List ColumnTypeValue) :
    ∀ (rs : List RowEntry) (v : List IVEntry) (i curLen : Nat),
      v.length = max curLen i →
      occApply today old_data curLen v rs i =
        v.take i ++ rs.map (fun re => ⟨re.name, ivValueOf today old_data re⟩) ++
          v.drop (i + rs.length) := by
  intro rs
  induction rs with
  | nil =>
      intro v i curLen hv
      simp [occApply]
  | cons re rest ih =>
      intro v i curLen hv
      by_cases hcur : i < curLen
      · have hvlen : i < v.length := by rw [hv]; omega
        simp only [occApply, if_pos hcur]
        rw [ih _ (i + 1) curLen (by rw [List.length_set, hv]; omega)]
        rw [List.set_eq_take_append_cons_drop, if_pos hvlen]
        have hti : (v.take i).length = i := by
          rw [List.length_take]; omega
        rw [List.take_append_eq_append_take, List.take_of_length_le (by omega),
          List.drop_append_eq_append_drop]
        have h1 : (i + 1) - (v.take i).length = 1 := by omega
        rw [h1]
        have hdrop : (v.take i).drop (i + 1 + rest.length) = [] :=
          List.drop_eq_nil_of_le (by omega)
        rw [hdrop]
        have h4 : i + 1 + rest.length = i + (rest.length + 1) := by omega
        simp [List.take_succ_cons, List.drop_drop, List.append_assoc, h4, hti]
      · have hlen : v.length = i := by rw [hv]; omega
        simp only [occApply, if_neg hcur]
        rw [ih _ (i + 1) curLen (by simp [hlen]; try omega)]
        have ht : (v ++ [IVEntry.mk re.name (ivValueOf today old_data re)]).take (i + 1) =
            v ++ [IVEntry.mk re.name (ivValueOf today old_data re)] :=
          List.take_of_length_le (by simp [hlen])
        have hd : (v ++ [IVEntry.mk re.name (ivValueOf today old_data re)]).drop
            (i + 1 + rest.length) = [] :=
          List.drop_eq_nil_of_le (by simp [hlen]; try omega)
        have hd2 : v.drop (i + (rest.length + 1)) = [] :=
          List.drop_eq_nil_of_le (by omega)
        have ht2 : v.take i = v := List.take_of_length_le (by omega)
        simp only [List.map_cons, List.length_cons]
        rw [ht, hd, hd2, ht2]
        simp

lemma ivValueOf_eq_spec (today : String) (old_data : List ColumnTypeValue)
    (re : RowEntry) :
    ivValueOf today old_data re = specExpectedValue today (some old_data) re := rfl

lemma sortById_pairwise (l : List RowEntry) :
    (sortById l).Pairwise fun a b => a.id ≤ b.id := by
  have hs := @List.sorted_mergeSort RowEntry
    (fun a b : RowEntry => decide (a.id ≤ b.id))
    (fun a b c h1 h2 => by
      simp only [decide_eq_true_eq] at h1 h2 ⊢
      omega)
    (fun a b => by simpa using Nat.le_total a.id b.id) l
  exact hs.imp fun h => by simpa using h

/-! ## Claim C7 -/

/-- C7: after any `Replicate` message processed by `InputValue`, the displayed
rows are exactly the shown query's input columns sorted by column id, one row
per column; each row shows the value the claim predicts (a value saved under
the same query name is reused only when `is_column_type` holds for the
column's current type, otherwise the type's default), and hence every
displayed value's variant matches its column's declared `ColumnType`. -/
theorem inputValue_replicate_typed (today : String) (s : InputValue)
    (name : String) (row_data : List RowEntry) :
    (InputValue.update today s name row_data).values =
      (sortById row_data).map (fun re =>
        ⟨re.name,
          specExpectedValue today
            (if name = s.shown then some (s.values.map IVEntry.value)
              else s.data name) re⟩) ∧
    (InputValue.update today s name row_data).values.length = row_data.length ∧
    (sortById row_data).Pairwise (fun a b => a.id ≤ b.id) ∧
    List.Forall₂
      (fun (e : IVEntry) (re : RowEntry) => e.value.is_column_type re.ty = true)
      (InputValue.update today s name row_data).values (sortById row_data) := by
  have hval : (InputValue.update today s name row_data).values =
      (sortById row_data).map (fun re =>
        ⟨re.name,
          specExpectedValue today
            (if name = s.shown then some (s.values.map IVEntry.value)
              else s.data name) re⟩) := by
    cases hsv : (if name = s.shown then some (s.values.map IVEntry.value)
        else s.data name) with
    | none =>
        simp only [InputValue.update, hsv]
        rfl
    | some old_data =>
        simp only [InputValue.update, hsv]
        rw [occApply_spec today old_data (sortById row_data) s.values 0
          s.values.length (by simp)]
        rw [popBackN_eq_take]
        simp only [List.take_zero, List.nil_append, Nat.zero_add]
        rw [List.length_append, List.length_map, List.length_drop]
        have hidx : (sortById row_data).length +
            (s.values.length - (sortById row_data).length) -
            (s.values.length - (sortById row_data).length) =
            (sortById row_data).length := by omega
        rw [hidx]
        rw [List.take_left' (by rw [List.length_map])]
        rfl
  refine ⟨hval, ?_, sortById_pairwise row_data, ?_⟩
  · rw [hval, List.length_map]
    simp [sortById]
  · rw [hval, List.forall₂_map_left_iff]
    rw [List.forall₂_same]
    intro re _
    exact specExpectedValue_is_column_type today _ re

/-- Rust `str::trim`, re-implemented structurally (drop whitespace from both
ends) so that concrete evaluation reduces: core's `String.trim` is defined by
well-founded recursion and does not reduce definitionally. -/
def strTrim (s : String) : String :=
  String.mk (((s.data.dropWhile Char.isWhitespace).reverse.dropWhile
    Char.isWhitespace).reverse)

/-! ## Type row-editing component (src/analysis/type_component.rs)

The factory rows and the `Type` component's validity bookkeeping.  A panic in
the source (`unwrap` on a stale index, or the `(true, false)` arm of the
Delete handler) is modelled as `none`. -/

/-- `Row` (src/analysis/type_component.rs). -/
structure TCRow where
  name : String
  ty : ColumnType
  duplicate : Bool
  up : Bool
  down : Bool
deriving DecidableEq, Repr

/-- `Row::new` (src/analysis/type_component.rs). -/
def TCRow.new : TCRow :=
  { name := "", ty := .string, duplicate := false, up := false, down := false }

/-- `Validity` (src/analysis/type_component.rs). -/
inductive Validity where
  | noRows
  | notFilled
  | duplicates
  | valid
deriving DecidableEq, Repr

/-- The `Type` component's state (src/analysis/type_component.rs): the factory
rows plus `is_filled` and `has_duplicates` (the latter meaningful only while
`is_filled` holds, per the field's doc comment). -/
structure TypeState where
  rows : List TCRow
  is_filled : Bool
  has_duplicates : Bool
deriving Repr

/-- The `(idx, up, down)` table of `RestoreMoveValid::restore_move_valid`
(src/analysis/type_component.rs lines 193-215), selected by row count; a
negative index counts from the back. -/
def rmvTable : Nat → List (Int × Bool × Bool)
  | 0 => []
  | 1 => [(0, false, false)]
  | 2 => [(0, false, true), (1, true, false)]
  | 3 => [(0, false, true), (1, true, true), (2, true, false)]
  | _ => [(0, false, true), (1, true, true), (-2, true, true), (-1, true, false)]

/-- One table entry applied to the rows: resolve a negative index from the
back, then overwrite that row's `up`/`down` flags.  The source's
`get_mut(idx).unwrap()` cannot fail for the table's indices; an out-of-range
index is modelled as a no-op. -/
def applyUD (l : List TCRow) (e : Int × Bool × Bool) : List TCRow :=
  match l[(if e.1 < 0 then (l.length : Int) + e.1 else e.1).toNat]? with
  | some r =>
      l.set (if e.1 < 0 then (l.length : Int) + e.1 else e.1).toNat
        { r with up := e.2.1, down := e.2.2 }
  | none => l

/-- `restore_move_valid` (src/analysis/type_component.rs). -/
def restore_move_valid (l : List TCRow) : List TCRow :=
  (rmvTable l.length).foldl applyUD l

/-- The body of `check_duplicates` (src/analysis/type_component.rs): walk the
rows with the set of non-empty trimmed names seen so far; a row is a
duplicate when its trimmed name is non-empty and was seen before; empty names
are never inserted into the set. -/
def check_duplicates_go (seen : List String) :
    List TCRow → List TCRow × Bool
  | [] => ([], false)
  | r :: rs =>
      let nm := (strTrim r.name)
      let isDup := !nm.isEmpty && seen.contains nm
      let seen' := if nm.isEmpty then seen else nm :: seen
      let (rs', b) := check_duplicates_go seen' rs
      ({ r with duplicate := isDup } :: rs', isDup || b)

/-- `check_duplicates` (src/analysis/type_component.rs): returns the rows
with refreshed `duplicate` flags and whether any duplicate exists. -/
def check_duplicates (l : List TCRow) : List TCRow × Bool :=
  check_duplicates_go [] l

/-- `is_filled` (src/analysis/type_component.rs): every row's trimmed name is
non-empty. -/
def rows_filled (l : List TCRow) : Bool :=
  l.all fun r => !(strTrim r.name).isEmpty

/-- The messages of the claim: `Add`, `AddAbove`, `Delete`, `MoveUp`,
`MoveDown`, and `NameChanged` (the latter carrying the new entry text, since
the factory `Row::update` stores it before `Type::update` runs). -/
inductive TypeMsgM where
  | add
  | addAbove (idx : Nat)
  | delete (idx : Nat)
  | moveUp (idx : Nat)
  | moveDown (idx : Nat)
  | nameChanged (idx : Nat) (newName : String)
deriving DecidableEq, Repr

/-- `FactoryVecDeque::move_to`: take the row at `src` out and re-insert it at
`dst`. -/
def moveTo (l : List TCRow) (src dst : Nat) : List TCRow :=
  match l[src]? with
  | some r => (l.eraseIdx src).insertIdx dst r
  | none => l

/-- `Type::update` (src/analysis/type_component.rs): one message step,
returning the new state and the list of emitted `ValidityChanged` outputs, or
`none` where the source panics. -/
def typeStep (s : TypeState) : TypeMsgM → Option (TypeState × List Validity)
  | .add =>
      let rows1 := restore_move_valid (s.rows ++ [TCRow.new])
      if s.is_filled then
        some (⟨rows1, false, s.has_duplicates⟩, [.notFilled])
      else
        some (⟨rows1, s.is_filled, s.has_duplicates⟩, [])
  | .addAbove idx =>
      if idx ≤ s.rows.length then
        let rows1 := restore_move_valid (s.rows.insertIdx idx TCRow.new)
        if s.is_filled then
          some (⟨rows1, false, s.has_duplicates⟩, [.notFilled])
        else
          some (⟨rows1, s.is_filled, s.has_duplicates⟩, [])
      else none
  | .delete idx =>
      if idx < s.rows.length then
        let rows1 := restore_move_valid (s.rows.eraseIdx idx)
        if rows1.isEmpty then
          some (⟨rows1, false, s.has_duplicates⟩, [.noRows])
        else
          let hasDup := (check_duplicates rows1).2
          let rows2 := (check_duplicates rows1).1
          let isF := rows_filled rows2
          match s.is_filled, isF with
          | false, false => some (⟨rows2, s.is_filled, s.has_duplicates⟩, [])
          | false, true =>
              if hasDup then some (⟨rows2, true, true⟩, [.duplicates])
              else some (⟨rows2, true, false⟩, [.valid])
          | true, false => none
          | true, true =>
              if s.has_duplicates && !hasDup then
                some (⟨rows2, true, false⟩, [.valid])
              else some (⟨rows2, s.is_filled, s.has_duplicates⟩, [])
      else none
  | .moveUp idx =>
      if idx = 0 then some (⟨s.rows, s.is_filled, s.has_duplicates⟩, [])
      else if idx < s.rows.length then
        some (⟨restore_move_valid (moveTo s.rows idx (idx - 1)),
          s.is_filled, s.has_duplicates⟩, [])
      else none
  | .moveDown idx =>
      if idx + 1 < s.rows.length then
        some (⟨restore_move_valid (moveTo s.rows idx (idx + 1)),
          s.is_filled, s.has_duplicates⟩, [])
      else some (⟨s.rows, s.is_filled, s.has_duplicates⟩, [])
  | .nameChanged idx newName =>
      match s.rows[idx]? with
      | none => none
      | some r0 =>
          let prev_not_empty := !(strTrim r0.name).isEmpty
          let rows0 := s.rows.set idx { r0 with name := newName }
          let hasDup := (check_duplicates rows0).2
          let rows1 := (check_duplicates rows0).1
          let current_not_empty := !(strTrim newName).isEmpty
          match prev_not_empty, current_not_empty with
          | false, false => some (⟨rows1, s.is_filled, s.has_duplicates⟩, [])
          | true, false =>
              if s.is_filled then some (⟨rows1, false, s.has_duplicates⟩, [.notFilled])
              else some (⟨rows1, s.is_filled, s.has_duplicates⟩, [])
          | false, true =>
              if rows_filled rows1 then
                if hasDup then some (⟨rows1, true, true⟩, [.duplicates])
                else some (⟨rows1, true, false⟩, [.valid])
              else some (⟨rows1, s.is_filled, s.has_duplicates⟩, [])
          | true, true =>
              if s.is_filled then
                match s.has_duplicates, hasDup with
                | false, true => some (⟨rows1, true, true⟩, [.duplicates])
                | true, false => some (⟨rows1, true, false⟩, [.valid])
                | _, _ => some (⟨rows1, s.is_filled, s.has_duplicates⟩, [])
              else some (⟨rows1, s.is_filled, s.has_duplicates⟩, [])

/-- The component's initial state (`Type::init`). -/
def typeInit : TypeState := ⟨[], false, false⟩

/-- Run a message sequence; `none` as soon as a step panics. -/
def typeRun : TypeState → List TypeMsgM → Option TypeState
  | s, [] => some s
  | s, m :: ms =>
      match typeStep s m with
      | none => none
      | some (s', _) => typeRun s' ms

/-- The trimmed names of the rows. -/
def trimmedNames (l : List TCRow) : List String :=
  l.map fun r => (strTrim r.name)

/-- The claim's validity classification of a name list (spec side): no rows,
some empty name, a repeated name, or all filled and pairwise distinct. -/
def specValidityN (ns : List String) : Validity :=
  if ns.isEmpty then .noRows
  else if !(ns.all fun n => !n.isEmpty) then .notFilled
  else if ns.Nodup then .valid
  else .duplicates

/-- The claim's validity classification of a row list (spec side). -/
def specValidity (l : List TCRow) : Validity :=
  specValidityN (trimmedNames l)

/-- The duplicate detection at the level of trimmed names. -/
def dupGo (seen : List String) : List String → Bool
  | [] => false
  | n :: ns =>
      (!n.isEmpty && seen.contains n) ||
        dupGo (if n.isEmpty then seen else n :: seen) ns

lemma check_dup_go_spec (l : List TCRow) :
    ∀ seen : List String,
      trimmedNames (check_duplicates_go seen l).1 = trimmedNames l ∧
      (check_duplicates_go seen l).2 = dupGo seen (trimmedNames l) := by
  induction l with
  | nil => intro seen; exact ⟨rfl, rfl⟩
  | cons r rs ih =>
      intro seen
      obtain ⟨h1, h2⟩ := ih (if (strTrim r.name).isEmpty then seen else (strTrim r.name) :: seen)
      constructor
      · simp only [check_duplicates_go, trimmedNames, List.map_cons]
        exact congrArg (List.cons (strTrim r.name)) h1
      · simp only [check_duplicates_go, trimmedNames, List.map_cons, dupGo]
        exact congrArg
          (fun b => (!(strTrim r.name).isEmpty && seen.contains (strTrim r.name)) || b) h2

lemma dupGo_filled_iff (ns : List String) :
    ∀ seen : List String, (∀ n ∈ ns, n.isEmpty = false) →
      (dupGo seen ns = true ↔ (∃ n ∈ ns, n ∈ seen) ∨ ¬ ns.Nodup) := by
  induction ns with
  | nil =>
      intro seen _
      simp [dupGo, List.nodup_nil]
  | cons n ns ih =>
      intro seen hall
      have hn : n.isEmpty = false := hall n (List.mem_cons_self _ _)
      have hrest : ∀ m ∈ ns, m.isEmpty = false :=
        fun m hm => hall m (List.mem_cons_of_mem _ hm)
      simp only [dupGo, hn, Bool.not_false, Bool.true_and, Bool.or_eq_true]
      rw [if_neg (by simp : ¬(false = true))]
      rw [ih (n :: seen) hrest]
      simp only [List.contains, List.elem_eq_mem, decide_eq_true_eq]
      simp only [List.nodup_cons, List.mem_cons]
      constructor
      · rintro (hmem | ⟨m, hm, (rfl | hmseen)⟩ | hnd)
        · exact Or.inl ⟨n, Or.inl rfl, hmem⟩
        · exact Or.inr (fun hc => hc.1 hm)
        · exact Or.inl ⟨m, Or.inr hm, hmseen⟩
        · exact Or.inr (fun hc => hnd hc.2)
      · rintro (⟨m, (rfl | hm), hmseen⟩ | hnd)
        · exact Or.inl hmseen
        · exact Or.inr (Or.inl ⟨m, hm, Or.inr hmseen⟩)
        · by_cases hmem : n ∈ ns
          · exact Or.inr (Or.inl ⟨n, hmem, Or.inl rfl⟩)
          · exact Or.inr (Or.inr fun hnd2 => hnd ⟨hmem, hnd2⟩)

lemma check_duplicates_names (l : List TCRow) :
    trimmedNames (check_duplicates l).1 = trimmedNames l :=
  (check_dup_go_spec l []).1

/-- For a fully filled row list, the `check_duplicates` answer is exactly
"the trimmed names are not pairwise distinct". -/
lemma check_duplicates_snd_filled (l : List TCRow) (hf : rows_filled l = true) :
    ((check_duplicates l).2 = true ↔ ¬ (trimmedNames l).Nodup) := by
  unfold check_duplicates
  rw [(check_dup_go_spec l []).2]
  rw [dupGo_filled_iff (trimmedNames l) []
    (by
      intro n hn
      simp only [trimmedNames, List.mem_map] at hn
      obtain ⟨r, hr, rfl⟩ := hn
      have := List.all_eq_true.mp hf r hr
      simpa using this)]
  simp

lemma trimmedNames_applyUD (l : List TCRow) (e : Int × Bool × Bool) :
    trimmedNames (applyUD l e) = trimmedNames l := by
  cases hidx : l[(if e.1 < 0 then (l.length : Int) + e.1 else e.1).toNat]? with
  | none => simp only [applyUD, hidx]
  | some r =>
      simp only [applyUD, hidx, trimmedNames, List.map_set]
      apply List.ext_getElem?
      intro n
      rw [List.getElem?_set]
      by_cases hn : (if e.1 < 0 then (l.length : Int) + e.1 else e.1).toNat = n
      · rw [if_pos hn, if_pos (by
          rw [List.length_map]
          exact hn ▸ (List.getElem?_eq_some_iff.mp hidx).1)]
        subst hn
        rw [List.getElem?_map, hidx]
        rfl
      · rw [if_neg hn]

lemma length_applyUD (l : List TCRow) (e : Int × Bool × Bool) :
    (applyUD l e).length = l.length := by
  cases hidx : l[(if e.1 < 0 then (l.length : Int) + e.1 else e.1).toNat]? with
  | none => simp only [applyUD, hidx]
  | some r => simp only [applyUD, hidx, List.length_set]

lemma trimmedNames_foldl_applyUD (es : List (Int × Bool × Bool)) :
    ∀ l : List TCRow, trimmedNames (es.foldl applyUD l) = trimmedNames l := by
  induction es with
  | nil => intro l; rfl
  | cons e es ih =>
      intro l
      simp only [List.foldl_cons]
      rw [ih, trimmedNames_applyUD]

lemma length_foldl_applyUD (es : List (Int × Bool × Bool)) :
    ∀ l : List TCRow, (es.foldl applyUD l).length = l.length := by
  induction es with
  | nil => intro l; rfl
  | cons e es ih =>
      intro l
      simp only [List.foldl_cons]
      rw [ih, length_applyUD]

lemma trimmedNames_restore (l : List TCRow) :
    trimmedNames (restore_move_valid l) = trimmedNames l :=
  trimmedNames_foldl_applyUD _ l

lemma length_restore (l : List TCRow) :
    (restore_move_valid l).length = l.length :=
  length_foldl_applyUD _ l

lemma insertIdx_perm_cons {α : Type} (a : α) :
    ∀ (n : Nat) (l : List α), n ≤ l.length → (l.insertIdx n a).Perm (a :: l) := by
  intro n
  induction n with
  | zero => intro l _; rw [List.insertIdx_zero]
  | succ n ih =>
      intro l hl
      cases l with
      | nil => simp at hl
      | cons hd tl =>
          rw [List.insertIdx_succ_cons]
          exact ((ih tl (Nat.le_of_succ_le_succ hl)).cons hd).trans
            (List.Perm.swap a hd tl)

lemma cons_eraseIdx_perm {α : Type} :
    ∀ (l : List α) (i : Nat) (r : α),
      l[i]? = some r → l.Perm (r :: l.eraseIdx i) := by
  intro l
  induction l with
  | nil => intro i r h; simp at h
  | cons hd tl ih =>
      intro i r h
      cases i with
      | zero =>
          simp only [List.getElem?_cons_zero, Option.some.injEq] at h
          subst h
          rw [List.eraseIdx_cons_zero]
      | succ i =>
          simp only [List.getElem?_cons_succ] at h
          rw [List.eraseIdx_cons_succ]
          exact ((ih i r h).cons hd).trans (List.Perm.swap r hd _)

lemma perm_all (p : String → Bool) {ns ns' : List String} (h : ns.Perm ns') :
    ns.all p = ns'.all p := by
  cases hb : ns'.all p with
  | false =>
      cases hb2 : ns.all p with
      | false => rfl
      | true =>
          rw [List.all_eq_true] at hb2
          rw [List.all_eq_true.mpr fun x hx => hb2 x (h.mem_iff.mpr hx)] at hb
          cases hb
  | true =>
      rw [List.all_eq_true] at hb ⊢
      exact fun x hx => hb x (h.mem_iff.mp hx)

lemma specValidityN_perm {ns ns' : List String} (h : ns.Perm ns') :
    specValidityN ns = specValidityN ns' := by
  have he : ns.isEmpty = ns'.isEmpty := by
    cases ns with
    | nil =>
        cases ns' with
        | nil => rfl
        | cons _ _ => exact absurd h.length_eq (by simp)
    | cons _ _ =>
        cases ns' with
        | nil => exact absurd h.length_eq (by simp)
        | cons _ _ => rfl
  unfold specValidityN
  exact if_congr (by rw [he]) rfl
    (if_congr (by rw [perm_all _ h]) rfl (if_congr h.nodup_iff rfl rfl))

lemma specValidityN_eq_noRows_iff (ns : List String) :
    specValidityN ns = .noRows ↔ ns = [] := by
  unfold specValidityN
  split_ifs with h1 h2 h3 <;> simp_all [List.isEmpty_iff]

lemma specValidityN_eq_notFilled_iff (ns : List String) :
    specValidityN ns = .notFilled ↔
      ns ≠ [] ∧ (ns.all fun n => !n.isEmpty) = false := by
  unfold specValidityN
  split_ifs with h1 h2 h3 <;> simp_all [List.isEmpty_iff]

lemma specValidityN_eq_valid_iff (ns : List String) :
    specValidityN ns = .valid ↔
      ns ≠ [] ∧ (ns.all fun n => !n.isEmpty) = true ∧ ns.Nodup := by
  unfold specValidityN
  split_ifs with h1 h2 h3 <;> simp_all [List.isEmpty_iff]

lemma specValidityN_eq_duplicates_iff (ns : List String) :
    specValidityN ns = .duplicates ↔
      ns ≠ [] ∧ (ns.all fun n => !n.isEmpty) = true ∧ ¬ ns.Nodup := by
  unfold specValidityN
  split_ifs with h1 h2 h3 <;> simp_all [List.isEmpty_iff]

lemma rows_filled_eq (l : List TCRow) :
    rows_filled l = ((trimmedNames l).all fun n => !n.isEmpty) := by
  induction l with
  | nil => rfl
  | cons r rs ih =>
      simp only [rows_filled, trimmedNames, List.map_cons, List.all_cons]
      exact congrArg (fun b => (!(strTrim r.name).isEmpty) && b) ih

lemma trimmedNames_eq_nil_iff (l : List TCRow) :
    trimmedNames l = [] ↔ l = [] := by
  unfold trimmedNames
  simp

/-- The claim-side invariant carried through every reachable state: the
`is_filled` flag mirrors "non-empty row list with every trimmed name
non-empty", and while it holds `has_duplicates` mirrors "some trimmed name
repeats". -/
def TInv (s : TypeState) : Prop :=
  (s.is_filled = true ↔
    (trimmedNames s.rows ≠ [] ∧
      ((trimmedNames s.rows).all fun n => !n.isEmpty) = true)) ∧
  (s.is_filled = true →
    (s.has_duplicates = true ↔ ¬ (trimmedNames s.rows).Nodup))

lemma trimmedNames_set (l : List TCRow) (i : Nat) (r : TCRow) :
    trimmedNames (l.set i r) = (trimmedNames l).set i (strTrim r.name) := by
  simp [trimmedNames, List.map_set]

lemma trimmedNames_append_one (l : List TCRow) (r : TCRow) :
    trimmedNames (l ++ [r]) = trimmedNames l ++ [(strTrim r.name)] := by
  simp [trimmedNames]

lemma trimmedNames_insertIdx :
    ∀ (n : Nat) (l : List TCRow) (r : TCRow),
      trimmedNames (l.insertIdx n r) = (trimmedNames l).insertIdx n (strTrim r.name) := by
  intro n
  induction n with
  | zero => intro l r; rfl
  | succ n ih =>
      intro l r
      cases l with
      | nil => rfl
      | cons hd tl =>
          simp only [List.insertIdx_succ_cons, trimmedNames, List.map_cons]
          exact congrArg (List.cons (strTrim hd.name)) (ih tl r)

lemma trimmedNames_eraseIdx :
    ∀ (l : List TCRow) (i : Nat),
      trimmedNames (l.eraseIdx i) = (trimmedNames l).eraseIdx i := by
  intro l
  induction l with
  | nil => intro i; rfl
  | cons hd tl ih =>
      intro i
      cases i with
      | zero => rfl
      | succ i =>
          simp only [List.eraseIdx_cons_succ, trimmedNames, List.map_cons]
          exact congrArg (List.cons (strTrim hd.name)) (ih i)

lemma all_eq_false_of_mem {p : String → Bool} {x : String} {ns : List String}
    (hx : x ∈ ns) (hp : p x = false) : ns.all p = false := by
  cases h : ns.all p with
  | false => rfl
  | true => exact absurd (List.all_eq_true.mp h x hx) (by simp [hp])

lemma all_eraseIdx_of_all {p : String → Bool} {ns : List String} {i : Nat}
    (h : ns.all p = true) : (ns.eraseIdx i).all p = true := by
  rw [List.all_eq_true] at h ⊢
  exact fun x hx => h x ((List.eraseIdx_sublist ns i).subset hx)

lemma nodup_eraseIdx_of_nodup {ns : List String} {i : Nat}
    (h : ns.Nodup) : (ns.eraseIdx i).Nodup :=
  (List.eraseIdx_sublist ns i).nodup h

lemma all_set_of_all {p : String → Bool} {ns : List String} {i : Nat} {a : String}
    (h : ns.all p = true) (ha : p a = true) : (ns.set i a).all p = true := by
  rw [List.all_eq_true] at h ⊢
  intro x hx
  rcases List.mem_or_eq_of_mem_set hx with hx | rfl
  · exact h x hx
  · exact ha

lemma mem_set_of_mem_ne {l : List String} {x y a : String} {i : Nat}
    (hx : x ∈ l) (hy : l[i]? = some y) (hne : x ≠ y) : x ∈ l.set i a := by
  obtain ⟨j, hj⟩ := List.getElem?_of_mem hx
  have hji : i ≠ j := by
    rintro rfl
    rw [hj] at hy
    cases hy
    exact hne rfl
  have : (l.set i a)[j]? = some x := by
    rw [List.getElem?_set_ne hji, hj]
  exact List.mem_iff_getElem?.mpr ⟨j, this⟩

lemma spec_valid_or_dup_iff (ns : List String) :
    (specValidityN ns = .valid ∨ specValidityN ns = .duplicates) ↔
      (ns ≠ [] ∧ (ns.all fun n => !n.isEmpty) = true) := by
  rw [specValidityN_eq_valid_iff, specValidityN_eq_duplicates_iff]
  tauto

lemma trimmedNames_moveTo_perm (l : List TCRow) (src dst : Nat)
    (hsrc : src < l.length) (hdst : dst ≤ l.length - 1) :
    (trimmedNames (moveTo l src dst)).Perm (trimmedNames l) := by
  unfold moveTo
  cases hs : l[src]? with
  | none => exact List.Perm.refl _
  | some r =>
      rw [trimmedNames_insertIdx, trimmedNames_eraseIdx]
      have hlen : ((trimmedNames l).eraseIdx src).length = l.length - 1 := by
        rw [List.length_eraseIdx_of_lt (by simpa [trimmedNames] using hsrc)]
        simp [trimmedNames]
      have hperm1 := insertIdx_perm_cons (strTrim r.name) dst
        ((trimmedNames l).eraseIdx src) (by rw [hlen]; exact hdst)
      have hns : (trimmedNames l)[src]? = some (strTrim r.name) := by
        rw [trimmedNames, List.getElem?_map, hs]
        rfl
      exact hperm1.trans (cons_eraseIdx_perm (trimmedNames l) src (strTrim r.name) hns).symm

/-- The claim's characterization of one step's emissions: each
`ValidityChanged` output is emitted exactly on entry into the corresponding
validity class (`NotFilled` specifically from a previously filled list,
`NoRows` exactly when a deletion empties the list). -/
def StepSpec (s s' : TypeState) (m : TypeMsgM) (out : List Validity) : Prop :=
  (Validity.valid ∈ out ↔
      specValidity s'.rows = .valid ∧ specValidity s.rows ≠ .valid) ∧
  (Validity.duplicates ∈ out ↔
      specValidity s'.rows = .duplicates ∧ specValidity s.rows ≠ .duplicates) ∧
  (Validity.notFilled ∈ out ↔
      specValidity s'.rows = .notFilled ∧
        (specValidity s.rows = .valid ∨ specValidity s.rows = .duplicates)) ∧
  (Validity.noRows ∈ out ↔ (∃ i, m = .delete i) ∧ s'.rows = [])

lemma filled_iff_spec (s : TypeState) (hInv : TInv s) :
    s.is_filled = true ↔
      (specValidity s.rows = .valid ∨ specValidity s.rows = .duplicates) := by
  rw [specValidity, spec_valid_or_dup_iff]
  exact hInv.1

lemma typeStep_add (s : TypeState) (hInv : TInv s) (s' : TypeState)
    (out : List Validity) (h : typeStep s TypeMsgM.add = some (s', out)) :
    TInv s' ∧ StepSpec s s' .add out := by
  have htrim : (strTrim TCRow.new.name) = "" := by decide
  have hns' : trimmedNames (restore_move_valid (s.rows ++ [TCRow.new])) =
      trimmedNames s.rows ++ [""] := by
    rw [trimmedNames_restore, trimmedNames_append_one, htrim]
  have hmem0 : "" ∈ trimmedNames s.rows ++ [""] := by simp
  have hall' : ((trimmedNames s.rows ++ [""]).all fun n => !n.isEmpty) = false :=
    all_eq_false_of_mem hmem0 (by decide)
  have hspecN : specValidityN (trimmedNames s.rows ++ [""]) = .notFilled := by
    rw [specValidityN_eq_notFilled_iff]
    exact ⟨by simp, hall'⟩
  have hfs := filled_iff_spec s hInv
  cases hf : s.is_filled with
  | true =>
      simp only [typeStep, hf, if_true, Option.some.injEq, Prod.mk.injEq] at h
      obtain ⟨hs', hout⟩ := h
      subst hs'
      subst hout
      refine ⟨⟨?_, ?_⟩, ?_, ?_, ?_, ?_⟩
      · simp only [trimmedNames] at hns' hall' ⊢
        simp [hns', hall']
      · intro hc; simp at hc
      · simp only [StepSpec, specValidity, hns', hspecN]
        simp
      · simp [specValidity, hns', hspecN]
      · simp only [specValidity, hns', hspecN]
        simp only [List.mem_singleton, true_iff]
        exact ⟨by simp, hfs.mp hf⟩
      · constructor
        · exact fun hc => absurd hc (by decide)
        · rintro ⟨⟨i, hi⟩, -⟩; cases hi
  | false =>
      simp only [typeStep, hf, Bool.false_eq_true, if_false, Option.some.injEq,
        Prod.mk.injEq] at h
      obtain ⟨hs', hout⟩ := h
      subst hs'
      subst hout
      refine ⟨⟨?_, ?_⟩, ?_, ?_, ?_, ?_⟩
      · simp [hns', hall']
      · intro hc; simp at hc
      · simp [specValidity, hns', hspecN]
      · simp [specValidity, hns', hspecN]
      · simp only [specValidity, hns', hspecN]
        constructor
        · intro hc; simp at hc
        · rintro ⟨-, hvd⟩
          rw [hf] at hfs
          exact absurd (hfs.mpr hvd) (by simp)
      · constructor
        · exact fun hc => absurd hc (by decide)
        · rintro ⟨⟨i, hi⟩, -⟩; cases hi

lemma typeStep_addAbove (s : TypeState) (hInv : TInv s) (idx : Nat) (s' : TypeState)
    (out : List Validity) (h : typeStep s (TypeMsgM.addAbove idx) = some (s', out)) :
    TInv s' ∧ StepSpec s s' (.addAbove idx) out := by
  by_cases hidx : idx ≤ s.rows.length
  · have htrim : strTrim TCRow.new.name = "" := by decide
    have hns' : trimmedNames (restore_move_valid (s.rows.insertIdx idx TCRow.new)) =
        (trimmedNames s.rows).insertIdx idx "" := by
      rw [trimmedNames_restore, trimmedNames_insertIdx, htrim]
    have hlen : idx ≤ (trimmedNames s.rows).length := by
      simpa [trimmedNames] using hidx
    have hmem : "" ∈ (trimmedNames s.rows).insertIdx idx "" :=
      (List.mem_insertIdx hlen).mpr (Or.inl rfl)
    have hall' : (((trimmedNames s.rows).insertIdx idx "").all
        fun n => !n.isEmpty) = false :=
      all_eq_false_of_mem hmem (by decide)
    have hspecN : specValidityN ((trimmedNames s.rows).insertIdx idx "") =
        Validity.notFilled := by
      rw [specValidityN_eq_notFilled_iff]
      exact ⟨List.ne_nil_of_mem hmem, hall'⟩
    have hfs := filled_iff_spec s hInv
    cases hf : s.is_filled with
    | true =>
        simp only [typeStep, hidx, if_true, hf, Option.some.injEq, Prod.mk.injEq] at h
        obtain ⟨hs', hout⟩ := h
        subst hs'
        subst hout
        refine ⟨⟨?_, ?_⟩, ?_, ?_, ?_, ?_⟩
        · simp [hns', hall', List.ne_nil_of_mem hmem]
        · intro hc; simp at hc
        · simp [StepSpec, specValidity, hns', hspecN]
        · simp [specValidity, hns', hspecN]
        · simp only [specValidity, hns', hspecN]
          simp only [List.mem_singleton, true_iff]
          exact ⟨by simp, hfs.mp hf⟩
        · constructor
          · exact fun hc => absurd hc (by decide)
          · rintro ⟨⟨i, hi⟩, -⟩; cases hi
    | false =>
        simp only [typeStep, hidx, if_true, hf, Bool.false_eq_true, if_false,
          Option.some.injEq, Prod.mk.injEq] at h
        obtain ⟨hs', hout⟩ := h
        subst hs'
        subst hout
        refine ⟨⟨?_, ?_⟩, ?_, ?_, ?_, ?_⟩
        · simp [hns', hall']
        · intro hc; simp at hc
        · simp [specValidity, hns', hspecN]
        · simp [specValidity, hns', hspecN]
        · simp only [specValidity, hns', hspecN]
          constructor
          · intro hc; simp at hc
          · rintro ⟨-, hvd⟩
            rw [hf] at hfs
            exact absurd (hfs.mpr hvd) (by simp)
        · constructor
          · exact fun hc => absurd hc (by decide)
          · rintro ⟨⟨i, hi⟩, -⟩; cases hi
  · simp only [typeStep, hidx, if_false] at h
    exact Option.noConfusion h

lemma stepSpec_of_perm (s s' : TypeState) (m : TypeMsgM)
    (hperm : (trimmedNames s'.rows).Perm (trimmedNames s.rows))
    (hm : ∀ i, m ≠ .delete i) :
    StepSpec s s' m [] := by
  have hspec : specValidity s'.rows = specValidity s.rows := specValidityN_perm hperm
  refine ⟨?_, ?_, ?_, ?_⟩
  · simp only [List.not_mem_nil, false_iff]
    rintro ⟨h1, h2⟩
    exact h2 (hspec ▸ h1)
  · simp only [List.not_mem_nil, false_iff]
    rintro ⟨h1, h2⟩
    exact h2 (hspec ▸ h1)
  · simp only [List.not_mem_nil, false_iff]
    rw [hspec]
    rintro ⟨h1, h2 | h2⟩ <;> rw [h1] at h2 <;> cases h2
  · simp only [List.not_mem_nil, false_iff]
    rintro ⟨⟨i, hi⟩, -⟩
    exact hm i hi

lemma TInv_perm (s : TypeState) (rows' : List TCRow)
    (hperm : (trimmedNames rows').Perm (trimmedNames s.rows)) (hInv : TInv s) :
    TInv ⟨rows', s.is_filled, s.has_duplicates⟩ := by
  obtain ⟨h1, h2⟩ := hInv
  have hne : trimmedNames rows' ≠ [] ↔ trimmedNames s.rows ≠ [] := by
    constructor <;> intro ha hc
    · exact ha (List.Perm.eq_nil (hc ▸ hperm))
    · exact ha (List.Perm.eq_nil (hc ▸ hperm.symm))
  constructor
  · show s.is_filled = true ↔
      (trimmedNames rows' ≠ [] ∧ ((trimmedNames rows').all fun n => !n.isEmpty) = true)
    rw [h1, perm_all (fun n => !n.isEmpty) hperm]
    exact and_congr hne.symm Iff.rfl
  · intro hf
    show s.has_duplicates = true ↔ ¬ (trimmedNames rows').Nodup
    rw [h2 hf]
    exact not_congr hperm.nodup_iff.symm

lemma typeStep_moveUp (s : TypeState) (hInv : TInv s) (idx : Nat) (s' : TypeState)
    (out : List Validity) (h : typeStep s (TypeMsgM.moveUp idx) = some (s', out)) :
    TInv s' ∧ StepSpec s s' (.moveUp idx) out := by
  by_cases h0 : idx = 0
  · subst h0
    simp [typeStep] at h
    obtain ⟨hs', hout⟩ := h
    subst hs'
    subst hout
    exact ⟨TInv_perm s s.rows (List.Perm.refl _) hInv,
      stepSpec_of_perm s _ _ (List.Perm.refl _) (fun i hi => by cases hi)⟩
  · by_cases hlt : idx < s.rows.length
    · simp only [typeStep] at h
      rw [if_neg h0, if_pos hlt] at h
      simp only [Option.some.injEq, Prod.mk.injEq] at h
      obtain ⟨hs', hout⟩ := h
      subst hs'
      subst hout
      have hperm : (trimmedNames (restore_move_valid
          (moveTo s.rows idx (idx - 1)))).Perm (trimmedNames s.rows) := by
        rw [trimmedNames_restore]
        exact trimmedNames_moveTo_perm s.rows idx (idx - 1) hlt (by omega)
      exact ⟨TInv_perm s _ hperm hInv,
        stepSpec_of_perm s _ _ hperm (fun i hi => by cases hi)⟩
    · simp only [typeStep] at h
      rw [if_neg h0, if_neg hlt] at h
      exact Option.noConfusion h

lemma typeStep_moveDown (s : TypeState) (hInv : TInv s) (idx : Nat) (s' : TypeState)
    (out : List Validity) (h : typeStep s (TypeMsgM.moveDown idx) = some (s', out)) :
    TInv s' ∧ StepSpec s s' (.moveDown idx) out := by
  by_cases hlt : idx + 1 < s.rows.length
  · simp only [typeStep] at h
    rw [if_pos hlt] at h
    simp only [Option.some.injEq, Prod.mk.injEq] at h
    obtain ⟨hs', hout⟩ := h
    subst hs'
    subst hout
    have hperm : (trimmedNames (restore_move_valid
        (moveTo s.rows idx (idx + 1)))).Perm (trimmedNames s.rows) := by
      rw [trimmedNames_restore]
      exact trimmedNames_moveTo_perm s.rows idx (idx + 1) (by omega) (by omega)
    exact ⟨TInv_perm s _ hperm hInv,
      stepSpec_of_perm s _ _ hperm (fun i hi => by cases hi)⟩
  · simp only [typeStep] at h
    rw [if_neg hlt] at h
    simp only [Option.some.injEq, Prod.mk.injEq] at h
    obtain ⟨hs', hout⟩ := h
    subst hs'
    subst hout
    exact ⟨TInv_perm s s.rows (List.Perm.refl _) hInv,
      stepSpec_of_perm s _ _ (List.Perm.refl _) (fun i hi => by cases hi)⟩

lemma stepSpec_silent_same (s s' : TypeState) (m : TypeMsgM)
    (h1 : specValidity s'.rows = specValidity s.rows)
    (hm : ∀ i, m = .delete i → s'.rows ≠ []) :
    StepSpec s s' m [] := by
  refine ⟨?_, ?_, ?_, ?_⟩
  · simp only [List.not_mem_nil, false_iff]
    rintro ⟨hv, hnv⟩
    exact hnv (h1 ▸ hv)
  · simp only [List.not_mem_nil, false_iff]
    rintro ⟨hv, hnv⟩
    exact hnv (h1 ▸ hv)
  · simp only [List.not_mem_nil, false_iff]
    rw [h1]
    rintro ⟨hv, h2 | h2⟩ <;> rw [hv] at h2 <;> cases h2
  · simp only [List.not_mem_nil, false_iff]
    rintro ⟨⟨i, hi⟩, h2⟩
    exact hm i hi h2

lemma stepSpec_emit_valid (s s' : TypeState) (m : TypeMsgM)
    (hv' : specValidity s'.rows = .valid)
    (hvs : specValidity s.rows ≠ .valid)
    (hnil : s'.rows ≠ []) :
    StepSpec s s' m [.valid] := by
  refine ⟨?_, ?_, ?_, ?_⟩
  · exact ⟨fun _ => ⟨hv', hvs⟩, fun _ => List.mem_singleton.mpr rfl⟩
  · constructor
    · exact fun hc => absurd hc (by decide)
    · rintro ⟨h1, -⟩; rw [hv'] at h1; cases h1
  · constructor
    · exact fun hc => absurd hc (by decide)
    · rintro ⟨h1, -⟩; rw [hv'] at h1; cases h1
  · constructor
    · exact fun hc => absurd hc (by decide)
    · rintro ⟨-, h2⟩; exact absurd h2 hnil

lemma stepSpec_emit_duplicates (s s' : TypeState) (m : TypeMsgM)
    (hv' : specValidity s'.rows = .duplicates)
    (hvs : specValidity s.rows ≠ .duplicates)
    (hnil : s'.rows ≠ []) :
    StepSpec s s' m [.duplicates] := by
  refine ⟨?_, ?_, ?_, ?_⟩
  · constructor
    · exact fun hc => absurd hc (by decide)
    · rintro ⟨h1, -⟩; rw [hv'] at h1; cases h1
  · exact ⟨fun _ => ⟨hv', hvs⟩, fun _ => List.mem_singleton.mpr rfl⟩
  · constructor
    · exact fun hc => absurd hc (by decide)
    · rintro ⟨h1, -⟩; rw [hv'] at h1; cases h1
  · constructor
    · exact fun hc => absurd hc (by decide)
    · rintro ⟨-, h2⟩; exact absurd h2 hnil

lemma stepSpec_emit_notFilled (s s' : TypeState) (m : TypeMsgM)
    (hv' : specValidity s'.rows = .notFilled)
    (hvd : specValidity s.rows = .valid ∨ specValidity s.rows = .duplicates)
    (hnil : s'.rows ≠ []) :
    StepSpec s s' m [.notFilled] := by
  refine ⟨?_, ?_, ?_, ?_⟩
  · constructor
    · exact fun hc => absurd hc (by decide)
    · rintro ⟨h1, -⟩; rw [hv'] at h1; cases h1
  · constructor
    · exact fun hc => absurd hc (by decide)
    · rintro ⟨h1, -⟩; rw [hv'] at h1; cases h1
  · exact ⟨fun _ => ⟨hv', hvd⟩, fun _ => List.mem_singleton.mpr rfl⟩
  · constructor
    · exact fun hc => absurd hc (by decide)
    · rintro ⟨-, h2⟩; exact absurd h2 hnil

lemma stepSpec_emit_noRows (s s' : TypeState) (i : Nat)
    (hrows : s'.rows = []) :
    StepSpec s s' (.delete i) [.noRows] := by
  have hv' : specValidity s'.rows = .noRows := by
    rw [hrows]
    rfl
  refine ⟨?_, ?_, ?_, ?_⟩
  · constructor
    · exact fun hc => absurd hc (by decide)
    · rintro ⟨h1, -⟩; rw [hv'] at h1; cases h1
  · constructor
    · exact fun hc => absurd hc (by decide)
    · rintro ⟨h1, -⟩; rw [hv'] at h1; cases h1
  · constructor
    · exact fun hc => absurd hc (by decide)
    · rintro ⟨h1, -⟩; rw [hv'] at h1; cases h1
  · exact ⟨fun _ => ⟨⟨i, rfl⟩, hrows⟩, fun _ => List.mem_singleton.mpr rfl⟩

lemma TInv_false (rows : List TCRow) (hd : Bool)
    (hall : ((trimmedNames rows).all fun n => !n.isEmpty) = false) :
    TInv ⟨rows, false, hd⟩ := by
  constructor
  · show false = true ↔ _
    simp [hall]
  · intro hc; simp at hc

lemma TInv_nil (hd : Bool) : TInv ⟨[], false, hd⟩ := by
  constructor
  · show false = true ↔ _
    simp [trimmedNames]
  · intro hc; simp at hc

lemma TInv_true (rows : List TCRow) (hd : Bool)
    (hne : trimmedNames rows ≠ [])
    (hall : ((trimmedNames rows).all fun n => !n.isEmpty) = true)
    (hdiff : hd = true ↔ ¬ (trimmedNames rows).Nodup) :
    TInv ⟨rows, true, hd⟩ := by
  exact ⟨by simp [hne, hall], fun _ => hdiff⟩

lemma typeStep_delete (s : TypeState) (hInv : TInv s) (idx : Nat) (s' : TypeState)
    (out : List Validity) (h : typeStep s (TypeMsgM.delete idx) = some (s', out)) :
    TInv s' ∧ StepSpec s s' (.delete idx) out := by
  by_cases hlt : idx < s.rows.length
  · have hnsne : trimmedNames s.rows ≠ [] := by
      intro hc
      rw [(trimmedNames_eq_nil_iff s.rows).mp hc] at hlt
      simp at hlt
    have hns1 : trimmedNames (restore_move_valid (s.rows.eraseIdx idx)) =
        (trimmedNames s.rows).eraseIdx idx := by
      rw [trimmedNames_restore, trimmedNames_eraseIdx]
    simp only [typeStep] at h
    rw [if_pos hlt] at h
    by_cases hemp : (restore_move_valid (s.rows.eraseIdx idx)).isEmpty = true
    · rw [if_pos hemp] at h
      simp only [Option.some.injEq, Prod.mk.injEq] at h
      obtain ⟨hs', hout⟩ := h
      subst hs'
      subst hout
      have hrows1 : restore_move_valid (s.rows.eraseIdx idx) = [] := by
        cases hr : restore_move_valid (s.rows.eraseIdx idx) with
        | nil => rfl
        | cons a l => rw [hr] at hemp; simp at hemp
      constructor
      · constructor
        · show false = true ↔ _
          simp [hrows1, trimmedNames]
        · intro hc; simp at hc
      · exact stepSpec_emit_noRows s _ idx hrows1
    · rw [if_neg hemp] at h
      have hne1 : restore_move_valid (s.rows.eraseIdx idx) ≠ [] := by
        intro hc
        rw [hc] at hemp
        exact hemp rfl
      have hnames2 : trimmedNames
          (check_duplicates (restore_move_valid (s.rows.eraseIdx idx))).1 =
          (trimmedNames s.rows).eraseIdx idx :=
        (check_duplicates_names _).trans hns1
      have hne2 : (trimmedNames s.rows).eraseIdx idx ≠ [] := by
        intro hc
        exact hne1 ((trimmedNames_eq_nil_iff _).mp (hns1.trans hc))
      have hrows2ne : (check_duplicates (restore_move_valid (s.rows.eraseIdx idx))).1 ≠ [] := by
        intro hc
        apply hne2
        rw [← hnames2, hc]
        rfl
      have hfil_eq : rows_filled
          (check_duplicates (restore_move_valid (s.rows.eraseIdx idx))).1 =
          (((trimmedNames s.rows).eraseIdx idx).all fun n => !n.isEmpty) :=
        (rows_filled_eq _).trans (by rw [hnames2])
      cases hf : s.is_filled with
      | false =>
          have hallS : ((trimmedNames s.rows).all fun n => !n.isEmpty) = false := by
            cases hb : (trimmedNames s.rows).all fun n => !n.isEmpty with
            | false => rfl
            | true => exact absurd (hInv.1.mpr ⟨hnsne, hb⟩) (by simp [hf])
          have hspecS : specValidity s.rows = Validity.notFilled :=
            (specValidityN_eq_notFilled_iff _).mpr ⟨hnsne, hallS⟩
          cases hfil : rows_filled
              (check_duplicates (restore_move_valid (s.rows.eraseIdx idx))).1 with
          | false =>
              simp only [hf, hfil, Option.some.injEq, Prod.mk.injEq] at h
              obtain ⟨hs', hout⟩ := h
              subst hs'
              subst hout
              have hall2 : (((trimmedNames s.rows).eraseIdx idx).all
                  fun n => !n.isEmpty) = false := by
                rw [← hfil_eq]
                exact hfil
              have hspec2 : specValidity
                  (check_duplicates (restore_move_valid (s.rows.eraseIdx idx))).1 =
                  Validity.notFilled := by
                rw [specValidity, hnames2]
                exact (specValidityN_eq_notFilled_iff _).mpr ⟨hne2, hall2⟩
              constructor
              · exact TInv_false _ _ (by rw [← rows_filled_eq]; exact hfil)
              · exact stepSpec_silent_same s _ _ (hspec2.trans hspecS.symm)
                  (fun i _ => hrows2ne)
          | true =>
              have hdupiff : (check_duplicates
                  (restore_move_valid (s.rows.eraseIdx idx))).2 = true ↔
                  ¬ ((trimmedNames s.rows).eraseIdx idx).Nodup := by
                rw [check_duplicates_snd_filled _ (by
                  rw [rows_filled_eq, hns1, ← hfil_eq]
                  exact hfil), hns1]
              have hall2 : (((trimmedNames s.rows).eraseIdx idx).all
                  fun n => !n.isEmpty) = true := by
                rw [← hfil_eq]
                exact hfil
              cases hdup : (check_duplicates
                  (restore_move_valid (s.rows.eraseIdx idx))).2 with
              | true =>
                  simp only [hf, hfil, hdup, if_true, Option.some.injEq,
                    Prod.mk.injEq] at h
                  obtain ⟨hs', hout⟩ := h
                  subst hs'
                  subst hout
                  have hnd : ¬ ((trimmedNames s.rows).eraseIdx idx).Nodup :=
                    hdupiff.mp hdup
                  have hspec2 : specValidity
                      (check_duplicates (restore_move_valid (s.rows.eraseIdx idx))).1 =
                      Validity.duplicates := by
                    rw [specValidity, hnames2]
                    exact (specValidityN_eq_duplicates_iff _).mpr ⟨hne2, hall2, hnd⟩
                  constructor
                  · exact TInv_true _ _ (by rw [hnames2]; exact hne2)
                      (by rw [hnames2]; exact hall2)
                      (by rw [hnames2]; exact iff_of_true rfl hnd)
                  · exact stepSpec_emit_duplicates s _ _ hspec2
                      (by rw [hspecS]; exact fun hc => Validity.noConfusion hc) hrows2ne
              | false =>
                  simp only [hf, hfil, hdup, Bool.false_eq_true, if_false,
                    Option.some.injEq, Prod.mk.injEq] at h
                  obtain ⟨hs', hout⟩ := h
                  subst hs'
                  subst hout
                  have hnd : ((trimmedNames s.rows).eraseIdx idx).Nodup := by
                    by_contra hc
                    rw [hdupiff.mpr hc] at hdup
                    cases hdup
                  have hspec2 : specValidity
                      (check_duplicates (restore_move_valid (s.rows.eraseIdx idx))).1 =
                      Validity.valid := by
                    rw [specValidity, hnames2]
                    exact (specValidityN_eq_valid_iff _).mpr ⟨hne2, hall2, hnd⟩
                  constructor
                  · exact TInv_true _ _ (by rw [hnames2]; exact hne2)
                      (by rw [hnames2]; exact hall2)
                      (by rw [hnames2]; exact iff_of_false (by simp) (not_not_intro hnd))
                  · exact stepSpec_emit_valid s _ _ hspec2
                      (by rw [hspecS]; exact fun hc => Validity.noConfusion hc) hrows2ne
      | true =>
          obtain ⟨-, hallS⟩ := hInv.1.mp hf
          have hsdup := hInv.2 hf
          have hall2 : (((trimmedNames s.rows).eraseIdx idx).all
              fun n => !n.isEmpty) = true := all_eraseIdx_of_all hallS
          have hfil : rows_filled
              (check_duplicates (restore_move_valid (s.rows.eraseIdx idx))).1 = true := by
            rw [hfil_eq]
            exact hall2
          have hdupiff : (check_duplicates
              (restore_move_valid (s.rows.eraseIdx idx))).2 = true ↔
              ¬ ((trimmedNames s.rows).eraseIdx idx).Nodup := by
            rw [check_duplicates_snd_filled _ (by
              rw [rows_filled_eq, hns1, ← hfil_eq]
              exact hfil), hns1]
          cases hsd : s.has_duplicates with
          | false =>
              have hndS : (trimmedNames s.rows).Nodup := by
                by_contra hc
                rw [hsdup.mpr hc] at hsd
                cases hsd
              have hnd2 : ((trimmedNames s.rows).eraseIdx idx).Nodup :=
                nodup_eraseIdx_of_nodup hndS
              have hdup : (check_duplicates
                  (restore_move_valid (s.rows.eraseIdx idx))).2 = false := by
                cases hd2 : (check_duplicates
                    (restore_move_valid (s.rows.eraseIdx idx))).2 with
                | false => rfl
                | true => exact absurd (hdupiff.mp hd2) (not_not_intro hnd2)
              simp only [hf, hfil, hsd, hdup, Bool.false_and, Bool.not_false,
                Bool.false_eq_true, if_false, Option.some.injEq, Prod.mk.injEq] at h
              obtain ⟨hs', hout⟩ := h
              subst hs'
              subst hout
              have hspecS : specValidity s.rows = Validity.valid :=
                (specValidityN_eq_valid_iff _).mpr ⟨hnsne, hallS, hndS⟩
              have hspec2 : specValidity
                  (check_duplicates (restore_move_valid (s.rows.eraseIdx idx))).1 =
                  Validity.valid := by
                rw [specValidity, hnames2]
                exact (specValidityN_eq_valid_iff _).mpr ⟨hne2, hall2, hnd2⟩
              constructor
              · exact TInv_true _ _ (by rw [hnames2]; exact hne2)
                  (by rw [hnames2]; exact hall2)
                  (by rw [hnames2]; exact iff_of_false (by simp) (not_not_intro hnd2))
              · exact stepSpec_silent_same s _ _ (hspec2.trans hspecS.symm)
                  (fun i _ => hrows2ne)
          | true =>
              have hndS : ¬ (trimmedNames s.rows).Nodup := hsdup.mp hsd
              have hspecS : specValidity s.rows = Validity.duplicates :=
                (specValidityN_eq_duplicates_iff _).mpr ⟨hnsne, hallS, hndS⟩
              cases hdup : (check_duplicates
                  (restore_move_valid (s.rows.eraseIdx idx))).2 with
              | false =>
                  simp only [hf, hfil, hsd, hdup, Bool.true_and, Bool.not_false,
                    if_true, Option.some.injEq, Prod.mk.injEq] at h
                  obtain ⟨hs', hout⟩ := h
                  subst hs'
                  subst hout
                  have hnd2 : ((trimmedNames s.rows).eraseIdx idx).Nodup := by
                    by_contra hc
                    rw [hdupiff.mpr hc] at hdup
                    cases hdup
                  have hspec2 : specValidity
                      (check_duplicates (restore_move_valid (s.rows.eraseIdx idx))).1 =
                      Validity.valid := by
                    rw [specValidity, hnames2]
                    exact (specValidityN_eq_valid_iff _).mpr ⟨hne2, hall2, hnd2⟩
                  constructor
                  · exact TInv_true _ _ (by rw [hnames2]; exact hne2)
                      (by rw [hnames2]; exact hall2)
                      (by rw [hnames2]; exact iff_of_false (by simp) (not_not_intro hnd2))
                  · exact stepSpec_emit_valid s _ _ hspec2
                      (by rw [hspecS]; exact fun hc => Validity.noConfusion hc) hrows2ne
              | true =>
                  simp only [hf, hfil, hsd, hdup, Bool.true_and, Bool.not_true,
                    Bool.false_eq_true, if_false, Option.some.injEq, Prod.mk.injEq] at h
                  obtain ⟨hs', hout⟩ := h
                  subst hs'
                  subst hout
                  have hnd2 : ¬ ((trimmedNames s.rows).eraseIdx idx).Nodup :=
                    hdupiff.mp hdup
                  have hspec2 : specValidity
                      (check_duplicates (restore_move_valid (s.rows.eraseIdx idx))).1 =
                      Validity.duplicates := by
                    rw [specValidity, hnames2]
                    exact (specValidityN_eq_duplicates_iff _).mpr ⟨hne2, hall2, hnd2⟩
                  constructor
                  · exact TInv_true _ _ (by rw [hnames2]; exact hne2)
                      (by rw [hnames2]; exact hall2)
                      (by rw [hnames2]; exact iff_of_true rfl hnd2)
                  · exact stepSpec_silent_same s _ _ (hspec2.trans hspecS.symm)
                      (fun i _ => hrows2ne)
  · simp only [typeStep] at h
    rw [if_neg hlt] at h
    exact Option.noConfusion h

lemma exists_empty_of_all_false {ns : List String}
    (h : (ns.all fun n => !n.isEmpty) = false) : ∃ x ∈ ns, x.isEmpty = true := by
  have h2 : ¬ (ns.all (fun n => !n.isEmpty) = true) := by simp [h]
  simp only [List.all_eq_true, not_forall] at h2
  obtain ⟨x, hx, hpx⟩ := h2
  exact ⟨x, hx, by simpa using hpx⟩

lemma all_false_of_unfilled (s : TypeState) (hInv : TInv s) (hf : s.is_filled = false)
    (hne : trimmedNames s.rows ≠ []) :
    ((trimmedNames s.rows).all fun n => !n.isEmpty) = false := by
  cases hb : (trimmedNames s.rows).all fun n => !n.isEmpty with
  | false => rfl
  | true => exact absurd (hInv.1.mpr ⟨hne, hb⟩) (by simp [hf])

lemma typeStep_nameChanged (s : TypeState) (hInv : TInv s) (idx : Nat) (nn : String)
    (s' : TypeState) (out : List Validity)
    (h : typeStep s (TypeMsgM.nameChanged idx nn) = some (s', out)) :
    TInv s' ∧ StepSpec s s' (.nameChanged idx nn) out := by
  cases hr0 : s.rows[idx]? with
  | none =>
      simp only [typeStep, hr0] at h
      exact Option.noConfusion h
  | some r0 =>
      have hlt : idx < s.rows.length := by
        by_contra hc
        rw [List.getElem?_eq_none_iff.mpr (le_of_not_lt hc)] at hr0
        cases hr0
      have hnsne : trimmedNames s.rows ≠ [] := by
        intro hc
        rw [(trimmedNames_eq_nil_iff s.rows).mp hc] at hlt
        simp at hlt
      have hlen : idx < (trimmedNames s.rows).length := by
        simpa [trimmedNames] using hlt
      have hnidx : (trimmedNames s.rows)[idx]? = some (strTrim r0.name) := by
        simp [trimmedNames, List.getElem?_map, hr0]
      have htn0 : trimmedNames (s.rows.set idx { r0 with name := nn }) =
          (trimmedNames s.rows).set idx (strTrim nn) := by
        rw [trimmedNames_set]
      have hns0 : trimmedNames
          (check_duplicates (s.rows.set idx { r0 with name := nn })).1 =
          (trimmedNames s.rows).set idx (strTrim nn) :=
        (check_duplicates_names _).trans htn0
      have hne0 : (trimmedNames s.rows).set idx (strTrim nn) ≠ [] := by
        intro hc
        exact hnsne ((List.set_eq_nil_iff _ _).mp hc)
      have hrows1ne : (check_duplicates (s.rows.set idx { r0 with name := nn })).1 ≠ [] := by
        intro hc
        apply hne0
        rw [← hns0, hc]
        rfl
      have hmemNew : (strTrim nn) ∈ (trimmedNames s.rows).set idx (strTrim nn) :=
        List.mem_iff_getElem?.mpr ⟨idx, List.getElem?_set_self hlen⟩
      cases hprev : (strTrim r0.name).isEmpty with
      | true =>
          have hallS : ((trimmedNames s.rows).all fun n => !n.isEmpty) = false :=
            all_eq_false_of_mem (List.mem_iff_getElem?.mpr ⟨idx, hnidx⟩) (by simp [hprev])
          have hf : s.is_filled = false := by
            cases hb : s.is_filled with
            | false => rfl
            | true =>
                obtain ⟨-, h2⟩ := hInv.1.mp hb
                rw [hallS] at h2
                cases h2
          have hspecS : specValidity s.rows = Validity.notFilled :=
            (specValidityN_eq_notFilled_iff _).mpr ⟨hnsne, hallS⟩
          cases hcur : (strTrim nn).isEmpty with
          | true =>
              simp only [typeStep, hr0, hprev, hcur, Bool.not_true, hf,
                Option.some.injEq, Prod.mk.injEq] at h
              obtain ⟨hs', hout⟩ := h
              subst hs'
              subst hout
              have hall0 : (((trimmedNames s.rows).set idx (strTrim nn)).all
                  fun n => !n.isEmpty) = false :=
                all_eq_false_of_mem hmemNew (by simp [hcur])
              have hspec2 : specValidity
                  (check_duplicates (s.rows.set idx { r0 with name := nn })).1 =
                  Validity.notFilled := by
                rw [specValidity, hns0]
                exact (specValidityN_eq_notFilled_iff _).mpr ⟨hne0, hall0⟩
              refine ⟨TInv_false _ _ (by rw [hns0]; exact hall0), ?_⟩
              exact stepSpec_silent_same s _ _ (hspec2.trans hspecS.symm)
                (fun i hc => TypeMsgM.noConfusion hc)
          | false =>
              cases hfilB : rows_filled
                  (check_duplicates (s.rows.set idx { r0 with name := nn })).1 with
              | false =>
                  simp only [typeStep, hr0, hprev, hcur, Bool.not_true, Bool.not_false,
                    hf, hfilB, Bool.false_eq_true, if_false,
                    Option.some.injEq, Prod.mk.injEq] at h
                  obtain ⟨hs', hout⟩ := h
                  subst hs'
                  subst hout
                  have hall0 : (((trimmedNames s.rows).set idx (strTrim nn)).all
                      fun n => !n.isEmpty) = false := by
                    rw [← hns0, ← rows_filled_eq]
                    exact hfilB
                  have hspec2 : specValidity
                      (check_duplicates (s.rows.set idx { r0 with name := nn })).1 =
                      Validity.notFilled := by
                    rw [specValidity, hns0]
                    exact (specValidityN_eq_notFilled_iff _).mpr ⟨hne0, hall0⟩
                  refine ⟨TInv_false _ _ (by rw [hns0]; exact hall0), ?_⟩
                  exact stepSpec_silent_same s _ _ (hspec2.trans hspecS.symm)
                    (fun i hc => TypeMsgM.noConfusion hc)
              | true =>
                  have hall0 : (((trimmedNames s.rows).set idx (strTrim nn)).all
                      fun n => !n.isEmpty) = true := by
                    rw [← hns0, ← rows_filled_eq]
                    exact hfilB
                  have hfilrows0 : rows_filled (s.rows.set idx { r0 with name := nn }) =
                      true := by
                    rw [rows_filled_eq, htn0]
                    exact hall0
                  have hdupiff : (check_duplicates
                      (s.rows.set idx { r0 with name := nn })).2 = true ↔
                      ¬ ((trimmedNames s.rows).set idx (strTrim nn)).Nodup := by
                    rw [check_duplicates_snd_filled _ hfilrows0, htn0]
                  cases hdup : (check_duplicates
                      (s.rows.set idx { r0 with name := nn })).2 with
                  | true =>
                      simp only [typeStep, hr0, hprev, hcur, Bool.not_true,
                        Bool.not_false, hf, hfilB, hdup, if_true,
                        Option.some.injEq, Prod.mk.injEq] at h
                      obtain ⟨hs', hout⟩ := h
                      subst hs'
                      subst hout
                      have hnd0 : ¬ ((trimmedNames s.rows).set idx (strTrim nn)).Nodup :=
                        hdupiff.mp hdup
                      have hspec2 : specValidity
                          (check_duplicates (s.rows.set idx { r0 with name := nn })).1 =
                          Validity.duplicates := by
                        rw [specValidity, hns0]
                        exact (specValidityN_eq_duplicates_iff _).mpr ⟨hne0, hall0, hnd0⟩
                      refine ⟨TInv_true _ _ (by rw [hns0]; exact hne0)
                        (by rw [hns0]; exact hall0)
                        (by rw [hns0]; exact iff_of_true rfl hnd0), ?_⟩
                      exact stepSpec_emit_duplicates s _ _ hspec2
                        (by rw [hspecS]; exact fun hc => Validity.noConfusion hc) hrows1ne
                  | false =>
                      simp only [typeStep, hr0, hprev, hcur, Bool.not_true,
                        Bool.not_false, hf, hfilB, hdup, Bool.false_eq_true, if_false,
                        if_true, Option.some.injEq, Prod.mk.injEq] at h
                      obtain ⟨hs', hout⟩ := h
                      subst hs'
                      subst hout
                      have hnd0 : ((trimmedNames s.rows).set idx (strTrim nn)).Nodup := by
                        by_contra hc
                        rw [hdupiff.mpr hc] at hdup
                        cases hdup
                      have hspec2 : specValidity
                          (check_duplicates (s.rows.set idx { r0 with name := nn })).1 =
                          Validity.valid := by
                        rw [specValidity, hns0]
                        exact (specValidityN_eq_valid_iff _).mpr ⟨hne0, hall0, hnd0⟩
                      refine ⟨TInv_true _ _ (by rw [hns0]; exact hne0)
                        (by rw [hns0]; exact hall0)
                        (by rw [hns0]; exact iff_of_false (by simp) (not_not_intro hnd0)),
                        ?_⟩
                      exact stepSpec_emit_valid s _ _ hspec2
                        (by rw [hspecS]; exact fun hc => Validity.noConfusion hc) hrows1ne
      | false =>
          cases hcur : (strTrim nn).isEmpty with
          | true =>
              have hall0 : (((trimmedNames s.rows).set idx (strTrim nn)).all
                  fun n => !n.isEmpty) = false :=
                all_eq_false_of_mem hmemNew (by simp [hcur])
              have hspec2 : specValidity
                  (check_duplicates (s.rows.set idx { r0 with name := nn })).1 =
                  Validity.notFilled := by
                rw [specValidity, hns0]
                exact (specValidityN_eq_notFilled_iff _).mpr ⟨hne0, hall0⟩
              cases hf : s.is_filled with
              | true =>
                  simp only [typeStep, hr0, hprev, hcur, Bool.not_true, Bool.not_false,
                    hf, if_true, Option.some.injEq, Prod.mk.injEq] at h
                  obtain ⟨hs', hout⟩ := h
                  subst hs'
                  subst hout
                  refine ⟨TInv_false _ _ (by rw [hns0]; exact hall0), ?_⟩
                  exact stepSpec_emit_notFilled s _ _ hspec2
                    ((filled_iff_spec s hInv).mp hf) hrows1ne
              | false =>
                  simp only [typeStep, hr0, hprev, hcur, Bool.not_true, Bool.not_false,
                    hf, Bool.false_eq_true, if_false, Option.some.injEq,
                    Prod.mk.injEq] at h
                  obtain ⟨hs', hout⟩ := h
                  subst hs'
                  subst hout
                  have hallS := all_false_of_unfilled s hInv hf hnsne
                  have hspecS : specValidity s.rows = Validity.notFilled :=
                    (specValidityN_eq_notFilled_iff _).mpr ⟨hnsne, hallS⟩
                  refine ⟨TInv_false _ _ (by rw [hns0]; exact hall0), ?_⟩
                  exact stepSpec_silent_same s _ _ (hspec2.trans hspecS.symm)
                    (fun i hc => TypeMsgM.noConfusion hc)
          | false =>
              cases hf : s.is_filled with
              | false =>
                  simp only [typeStep, hr0, hprev, hcur, Bool.not_false,
                    hf, Bool.false_eq_true, if_false, Option.some.injEq,
                    Prod.mk.injEq] at h
                  obtain ⟨hs', hout⟩ := h
                  subst hs'
                  subst hout
                  have hallS := all_false_of_unfilled s hInv hf hnsne
                  have hspecS : specValidity s.rows = Validity.notFilled :=
                    (specValidityN_eq_notFilled_iff _).mpr ⟨hnsne, hallS⟩
                  obtain ⟨x, hx, hxe⟩ := exists_empty_of_all_false hallS
                  have hxne : x ≠ (strTrim r0.name) := by
                    intro he
                    rw [he, hprev] at hxe
                    cases hxe
                  have hall0 : (((trimmedNames s.rows).set idx (strTrim nn)).all
                      fun n => !n.isEmpty) = false :=
                    all_eq_false_of_mem (mem_set_of_mem_ne hx hnidx hxne) (by simp [hxe])
                  have hspec2 : specValidity
                      (check_duplicates (s.rows.set idx { r0 with name := nn })).1 =
                      Validity.notFilled := by
                    rw [specValidity, hns0]
                    exact (specValidityN_eq_notFilled_iff _).mpr ⟨hne0, hall0⟩
                  refine ⟨TInv_false _ _ (by rw [hns0]; exact hall0), ?_⟩
                  exact stepSpec_silent_same s _ _ (hspec2.trans hspecS.symm)
                    (fun i hc => TypeMsgM.noConfusion hc)
              | true =>
                  obtain ⟨-, hallS⟩ := hInv.1.mp hf
                  have hsdup := hInv.2 hf
                  have hall0 : (((trimmedNames s.rows).set idx (strTrim nn)).all
                      fun n => !n.isEmpty) = true :=
                    all_set_of_all hallS (by simp [hcur])
                  have hfilrows0 : rows_filled (s.rows.set idx { r0 with name := nn }) =
                      true := by
                    rw [rows_filled_eq, htn0]
                    exact hall0
                  have hdupiff : (check_duplicates
                      (s.rows.set idx { r0 with name := nn })).2 = true ↔
                      ¬ ((trimmedNames s.rows).set idx (strTrim nn)).Nodup := by
                    rw [check_duplicates_snd_filled _ hfilrows0, htn0]
                  cases hsd : s.has_duplicates with
                  | false =>
                      have hndS : (trimmedNames s.rows).Nodup := by
                        by_contra hc
                        rw [hsdup.mpr hc] at hsd
                        cases hsd
                      have hspecS : specValidity s.rows = Validity.valid :=
                        (specValidityN_eq_valid_iff _).mpr ⟨hnsne, hallS, hndS⟩
                      cases hdup : (check_duplicates
                          (s.rows.set idx { r0 with name := nn })).2 with
                      | true =>
                          simp only [typeStep, hr0, hprev, hcur, Bool.not_false,
                            hf, hsd, hdup, if_true, Option.some.injEq,
                            Prod.mk.injEq] at h
                          obtain ⟨hs', hout⟩ := h
                          subst hs'
                          subst hout
                          have hnd0 : ¬ ((trimmedNames s.rows).set idx
                              (strTrim nn)).Nodup := hdupiff.mp hdup
                          have hspec2 : specValidity
                              (check_duplicates (s.rows.set idx
                                { r0 with name := nn })).1 = Validity.duplicates := by
                            rw [specValidity, hns0]
                            exact (specValidityN_eq_duplicates_iff _).mpr
                              ⟨hne0, hall0, hnd0⟩
                          refine ⟨TInv_true _ _ (by rw [hns0]; exact hne0)
                            (by rw [hns0]; exact hall0)
                            (by rw [hns0]; exact iff_of_true rfl hnd0), ?_⟩
                          exact stepSpec_emit_duplicates s _ _ hspec2
                            (by rw [hspecS]; exact fun hc => Validity.noConfusion hc)
                            hrows1ne
                      | false =>
                          simp only [typeStep, hr0, hprev, hcur, Bool.not_false,
                            hf, hsd, hdup, if_true, Option.some.injEq,
                            Prod.mk.injEq] at h
                          obtain ⟨hs', hout⟩ := h
                          subst hs'
                          subst hout
                          have hnd0 : ((trimmedNames s.rows).set idx
                              (strTrim nn)).Nodup := by
                            by_contra hc
                            rw [hdupiff.mpr hc] at hdup
                            cases hdup
                          have hspec2 : specValidity
                              (check_duplicates (s.rows.set idx
                                { r0 with name := nn })).1 = Validity.valid := by
                            rw [specValidity, hns0]
                            exact (specValidityN_eq_valid_iff _).mpr ⟨hne0, hall0, hnd0⟩
                          refine ⟨TInv_true _ _ (by rw [hns0]; exact hne0)
                            (by rw [hns0]; exact hall0)
                            (by rw [hns0]; exact iff_of_false (by simp) (not_not_intro hnd0)), ?_⟩
                          exact stepSpec_silent_same s _ _ (hspec2.trans hspecS.symm)
                            (fun i hc => TypeMsgM.noConfusion hc)
                  | true =>
                      have hndS : ¬ (trimmedNames s.rows).Nodup := hsdup.mp hsd
                      have hspecS : specValidity s.rows = Validity.duplicates :=
                        (specValidityN_eq_duplicates_iff _).mpr ⟨hnsne, hallS, hndS⟩
                      cases hdup : (check_duplicates
                          (s.rows.set idx { r0 with name := nn })).2 with
                      | false =>
                          simp only [typeStep, hr0, hprev, hcur, Bool.not_false,
                            hf, hsd, hdup, if_true, Option.some.injEq,
                            Prod.mk.injEq] at h
                          obtain ⟨hs', hout⟩ := h
                          subst hs'
                          subst hout
                          have hnd0 : ((trimmedNames s.rows).set idx
                              (strTrim nn)).Nodup := by
                            by_contra hc
                            rw [hdupiff.mpr hc] at hdup
                            cases hdup
                          have hspec2 : specValidity
                              (check_duplicates (s.rows.set idx
                                { r0 with name := nn })).1 = Validity.valid := by
                            rw [specValidity, hns0]
                            exact (specValidityN_eq_valid_iff _).mpr ⟨hne0, hall0, hnd0⟩
                          refine ⟨TInv_true _ _ (by rw [hns0]; exact hne0)
                            (by rw [hns0]; exact hall0)
                            (by rw [hns0]; exact iff_of_false (by simp) (not_not_intro hnd0)), ?_⟩
                          exact stepSpec_emit_valid s _ _ hspec2
                            (by rw [hspecS]; exact fun hc => Validity.noConfusion hc)
                            hrows1ne
                      | true =>
                          simp only [typeStep, hr0, hprev, hcur, Bool.not_false,
                            hf, hsd, hdup, if_true, Option.some.injEq,
                            Prod.mk.injEq] at h
                          obtain ⟨hs', hout⟩ := h
                          subst hs'
                          subst hout
                          have hnd0 : ¬ ((trimmedNames s.rows).set idx
                              (strTrim nn)).Nodup := hdupiff.mp hdup
                          have hspec2 : specValidity
                              (check_duplicates (s.rows.set idx
                                { r0 with name := nn })).1 = Validity.duplicates := by
                            rw [specValidity, hns0]
                            exact (specValidityN_eq_duplicates_iff _).mpr
                              ⟨hne0, hall0, hnd0⟩
                          refine ⟨TInv_true _ _ (by rw [hns0]; exact hne0)
                            (by rw [hns0]; exact hall0)
                            (by rw [hns0]; exact iff_of_true rfl hnd0), ?_⟩
                          exact stepSpec_silent_same s _ _ (hspec2.trans hspecS.symm)
                            (fun i hc => TypeMsgM.noConfusion hc)

lemma typeStep_sound (s : TypeState) (hInv : TInv s) (m : TypeMsgM) (s' : TypeState)
    (out : List Validity) (h : typeStep s m = some (s', out)) :
    TInv s' ∧ StepSpec s s' m out := by
  cases m with
  | add => exact typeStep_add s hInv s' out h
  | addAbove idx => exact typeStep_addAbove s hInv idx s' out h
  | delete idx => exact typeStep_delete s hInv idx s' out h
  | moveUp idx => exact typeStep_moveUp s hInv idx s' out h
  | moveDown idx => exact typeStep_moveDown s hInv idx s' out h
  | nameChanged idx nn => exact typeStep_nameChanged s hInv idx nn s' out h

lemma typeRun_TInv : ∀ (msgs : List TypeMsgM) (s0 s : TypeState),
    TInv s0 → typeRun s0 msgs = some s → TInv s := by
  intro msgs
  induction msgs with
  | nil =>
      intro s0 s h0 h
      simp only [typeRun, Option.some.injEq] at h
      subst h
      exact h0
  | cons m ms ih =>
      intro s0 s h0 h
      simp only [typeRun] at h
      cases hstep : typeStep s0 m with
      | none =>
          rw [hstep] at h
          exact Option.noConfusion h
      | some p =>
          obtain ⟨s1, out⟩ := p
          rw [hstep] at h
          exact ih s1 s (typeStep_sound s0 h0 m s1 out hstep).1 h

/-- C3: in the `Type` row-editing component, from the initial state and along any
sequence of `Add`, `AddAbove`, `Delete`, `NameChanged`, `MoveUp`, `MoveDown`
messages that does not panic, a step emits `ValidityChanged(Valid)` exactly when
the rows enter the state where every trimmed name is non-empty and all are
pairwise distinct; `Duplicates` exactly when entering the all-filled-but-repeated
state; `NotFilled` exactly when a previously valid-or-duplicate (i.e. filled) row
list becomes not-filled; and `NoRows` exactly when a deletion leaves no rows. -/
theorem type_component_validity_emissions (msgs : List TypeMsgM) (s : TypeState)
    (hrun : typeRun typeInit msgs = some s)
    (m : TypeMsgM) (s' : TypeState) (out : List Validity)
    (h : typeStep s m = some (s', out)) :
    StepSpec s s' m out := by
  have hInv : TInv s := typeRun_TInv msgs typeInit s (TInv_nil false) hrun
  exact (typeStep_sound s hInv m s' out h).2

/-- Concrete post-state used to instantiate the C3 theorem. -/
def sC3w : TypeState := ⟨restore_move_valid [TCRow.new], false, false⟩

/-- Witness for C3: a concrete `Add` step from the initial state. -/
theorem type_component_validity_emissions_witness :
    StepSpec typeInit sC3w TypeMsgM.add [] :=
  type_component_validity_emissions [] typeInit rfl TypeMsgM.add sC3w [] rfl

/-! ## C6: `restore_move_valid` and the up/down button flags -/

/-- Claim-side property (C6, spec wording): after a restore, a row's `up` flag
is set iff the row is not the first, and its `down` flag iff it is not the
last. -/
def rowFlagsCorrect (l : List TCRow) : Prop :=
  ∀ i r, l[i]? = some r →
    ((r.up = true ↔ 0 < i) ∧ (r.down = true ↔ i + 1 < l.length))

lemma applyUD_getElem (l : List TCRow) (e : Int × Bool × Bool) (j : Nat)
    (hj : (if e.1 < 0 then (l.length : Int) + e.1 else e.1).toNat = j) (i : Nat) :
    (applyUD l e)[i]? =
      if i = j then l[i]?.map (fun r => { r with up := e.2.1, down := e.2.2 })
      else l[i]? := by
  subst hj
  cases hv : l[(if e.1 < 0 then (l.length : Int) + e.1 else e.1).toNat]? with
  | none =>
      simp only [applyUD, hv]
      by_cases hij : i = (if e.1 < 0 then (l.length : Int) + e.1 else e.1).toNat
      · subst hij
        rw [if_pos rfl, hv]
        rfl
      · rw [if_neg hij]
  | some r =>
      simp only [applyUD, hv]
      by_cases hij : i = (if e.1 < 0 then (l.length : Int) + e.1 else e.1).toNat
      · have hlt : (if e.1 < 0 then (l.length : Int) + e.1 else e.1).toNat <
            l.length := by
          by_contra hc
          rw [List.getElem?_eq_none_iff.mpr (le_of_not_lt hc)] at hv
          cases hv
        subst hij
        rw [if_pos rfl, List.getElem?_set_self hlt, hv]
        rfl
      · rw [if_neg hij, List.getElem?_set_ne (Ne.symm hij)]

lemma restore_getElem_0 (l : List TCRow) (h : l.length = 0) :
    restore_move_valid l = l := by
  rw [restore_move_valid, h]
  rfl

lemma restore_getElem_1 (l : List TCRow) (h : l.length = 1) (i : Nat) :
    (restore_move_valid l)[i]? =
      if i = 0 then l[i]?.map (fun r => { r with up := false, down := false })
      else l[i]? := by
  have he : restore_move_valid l = applyUD l (0, false, false) := by
    rw [restore_move_valid, h]
    rfl
  rw [he, applyUD_getElem l (0, false, false) 0 (by simp) i]

lemma restore_getElem_2 (l : List TCRow) (h : l.length = 2) (i : Nat) :
    (restore_move_valid l)[i]? =
      if i = 0 then l[i]?.map (fun r => { r with up := false, down := true })
      else if i = 1 then l[i]?.map (fun r => { r with up := true, down := false })
      else l[i]? := by
  have he : restore_move_valid l =
      applyUD (applyUD l (0, false, true)) (1, true, false) := by
    rw [restore_move_valid, h]
    rfl
  rw [he, applyUD_getElem _ (1, true, false) 1 (by simp) i,
    applyUD_getElem l (0, false, true) 0 (by simp) i]
  split_ifs <;> first | rfl | omega

lemma restore_getElem_3 (l : List TCRow) (h : l.length = 3) (i : Nat) :
    (restore_move_valid l)[i]? =
      if i = 0 then l[i]?.map (fun r => { r with up := false, down := true })
      else if i = 1 then l[i]?.map (fun r => { r with up := true, down := true })
      else if i = 2 then l[i]?.map (fun r => { r with up := true, down := false })
      else l[i]? := by
  have he : restore_move_valid l =
      applyUD (applyUD (applyUD l (0, false, true)) (1, true, true))
        (2, true, false) := by
    rw [restore_move_valid, h]
    rfl
  rw [he, applyUD_getElem _ (2, true, false) 2 (by simp) i,
    applyUD_getElem _ (1, true, true) 1 (by simp) i,
    applyUD_getElem l (0, false, true) 0 (by simp) i]
  split_ifs <;> first | rfl | omega

lemma restore_getElem_big (l : List TCRow) (n : Nat) (h : l.length = n + 4) (i : Nat) :
    (restore_move_valid l)[i]? =
      if i = 0 then l[i]?.map (fun r => { r with up := false, down := true })
      else if i = 1 then l[i]?.map (fun r => { r with up := true, down := true })
      else if i = n + 2 then l[i]?.map (fun r => { r with up := true, down := true })
      else if i = n + 3 then l[i]?.map (fun r => { r with up := true, down := false })
      else l[i]? := by
  have he : restore_move_valid l =
      applyUD (applyUD (applyUD (applyUD l (0, false, true)) (1, true, true))
        (-2, true, true)) (-1, true, false) := by
    rw [restore_move_valid, h]
    rfl
  rw [he, applyUD_getElem _ (-1, true, false) (n + 3) (by
      rw [if_pos (by norm_num : (-1 : Int) < 0), length_applyUD, length_applyUD,
        length_applyUD, h]
      omega) i,
    applyUD_getElem _ (-2, true, true) (n + 2) (by
      rw [if_pos (by norm_num : (-2 : Int) < 0), length_applyUD, length_applyUD, h]
      omega) i,
    applyUD_getElem _ (1, true, true) 1 (by simp) i,
    applyUD_getElem l (0, false, true) 0 (by simp) i]
  split_ifs <;> first | rfl | omega

lemma flags_of_map {l : List TCRow} {i : Nat} {r : TCRow} {u d : Bool}
    (h : l[i]?.map (fun r0 => { r0 with up := u, down := d }) = some r) :
    r.up = u ∧ r.down = d := by
  cases ho : l[i]? with
  | none =>
      rw [ho] at h
      exact Option.noConfusion h
  | some r0 =>
      rw [ho] at h
      injection h with h1
      subst h1
      exact ⟨rfl, rfl⟩

lemma bool_iff_false {p : Prop} (hnp : ¬ p) : (false = true ↔ p) := by simp [hnp]

lemma bool_iff_true {p : Prop} (hp : p) : (true = true ↔ p) := by simp [hp]

lemma restore_boundary_flags (l : List TCRow) (i : Nat) (r : TCRow)
    (hget : (restore_move_valid l)[i]? = some r)
    (hb : i ≤ 1 ∨ l.length ≤ i + 2) :
    ((r.up = true ↔ 0 < i) ∧ (r.down = true ↔ i + 1 < l.length)) := by
  have hilt : i < l.length := by
    by_contra hc
    have hnone : (restore_move_valid l)[i]? = none :=
      List.getElem?_eq_none_iff.mpr (by rw [length_restore]; omega)
    rw [hnone] at hget
    cases hget
  rcases hn : l.length with - | - | - | - | n
  · exfalso
    omega
  · rw [restore_getElem_1 l hn i] at hget
    by_cases h0 : i = 0
    · rw [if_pos h0] at hget
      obtain ⟨hu, hd⟩ := flags_of_map hget
      exact ⟨by rw [hu]; exact bool_iff_false (by omega),
             by rw [hd]; exact bool_iff_false (by omega)⟩
    · rw [if_neg h0] at hget
      exfalso
      omega
  · rw [restore_getElem_2 l hn i] at hget
    by_cases h0 : i = 0
    · rw [if_pos h0] at hget
      obtain ⟨hu, hd⟩ := flags_of_map hget
      exact ⟨by rw [hu]; exact bool_iff_false (by omega),
             by rw [hd]; exact bool_iff_true (by omega)⟩
    · rw [if_neg h0] at hget
      by_cases h1 : i = 1
      · rw [if_pos h1] at hget
        obtain ⟨hu, hd⟩ := flags_of_map hget
        exact ⟨by rw [hu]; exact bool_iff_true (by omega),
               by rw [hd]; exact bool_iff_false (by omega)⟩
      · rw [if_neg h1] at hget
        exfalso
        omega
  · rw [restore_getElem_3 l hn i] at hget
    by_cases h0 : i = 0
    · rw [if_pos h0] at hget
      obtain ⟨hu, hd⟩ := flags_of_map hget
      exact ⟨by rw [hu]; exact bool_iff_false (by omega),
             by rw [hd]; exact bool_iff_true (by omega)⟩
    · rw [if_neg h0] at hget
      by_cases h1 : i = 1
      · rw [if_pos h1] at hget
        obtain ⟨hu, hd⟩ := flags_of_map hget
        exact ⟨by rw [hu]; exact bool_iff_true (by omega),
               by rw [hd]; exact bool_iff_true (by omega)⟩
      · rw [if_neg h1] at hget
        by_cases h2 : i = 2
        · rw [if_pos h2] at hget
          obtain ⟨hu, hd⟩ := flags_of_map hget
          exact ⟨by rw [hu]; exact bool_iff_true (by omega),
                 by rw [hd]; exact bool_iff_false (by omega)⟩
        · rw [if_neg h2] at hget
          exfalso
          omega
  · rw [restore_getElem_big l n hn i] at hget
    by_cases h0 : i = 0
    · rw [if_pos h0] at hget
      obtain ⟨hu, hd⟩ := flags_of_map hget
      exact ⟨by rw [hu]; exact bool_iff_false (by omega),
             by rw [hd]; exact bool_iff_true (by omega)⟩
    · rw [if_neg h0] at hget
      by_cases h1 : i = 1
      · rw [if_pos h1] at hget
        obtain ⟨hu, hd⟩ := flags_of_map hget
        exact ⟨by rw [hu]; exact bool_iff_true (by omega),
               by rw [hd]; exact bool_iff_true (by omega)⟩
      · rw [if_neg h1] at hget
        by_cases h2 : i = n + 2
        · rw [if_pos h2] at hget
          obtain ⟨hu, hd⟩ := flags_of_map hget
          exact ⟨by rw [hu]; exact bool_iff_true (by omega),
                 by rw [hd]; exact bool_iff_true (by omega)⟩
        · rw [if_neg h2] at hget
          by_cases h3 : i = n + 3
          · rw [if_pos h3] at hget
            obtain ⟨hu, hd⟩ := flags_of_map hget
            exact ⟨by rw [hu]; exact bool_iff_true (by omega),
                   by rw [hd]; exact bool_iff_false (by omega)⟩
          · rw [if_neg h3] at hget
            exfalso
            omega

lemma restore_middle_untouched (l : List TCRow) (i : Nat) (r : TCRow)
    (h2 : 2 ≤ i) (h3 : i + 3 ≤ l.length) (hget : l[i]? = some r) :
    (restore_move_valid l)[i]? = some r := by
  obtain ⟨n, hn⟩ : ∃ n, l.length = n + 4 := ⟨l.length - 4, by omega⟩
  rw [restore_getElem_big l n hn i, if_neg (by omega), if_neg (by omega),
    if_neg (by omega), if_neg (by omega)]
  exact hget

/-- C6 counterexample: the claim fails for a row list of length 5 — the table
in `restore_move_valid` only writes rows `0`, `1`, `len-2`, `len-1`, so the
middle row of five fresh rows keeps `up = false` although it is not the first
row. -/
theorem restore_move_valid_counterexample :
    ¬ ∀ l : List TCRow, 1 ≤ l.length → rowFlagsCorrect (restore_move_valid l) := by
  intro hP
  have h := hP (List.replicate 5 TCRow.new) (by decide) 2 TCRow.new (by rfl)
  exact absurd (h.1.mpr (by omega)) (by decide)

/-- C6 (amended): for row lists of length at most 4 `restore_move_valid` does
establish the claimed flags on every row; for longer lists it establishes them
exactly on rows `0`, `1`, `len-2`, `len-1`, and leaves every middle row
unchanged (so the claimed property does not hold for all rows when
`len >= 5`). -/
theorem restore_move_valid_up_down (l : List TCRow) :
    (l.length ≤ 4 → rowFlagsCorrect (restore_move_valid l)) ∧
    (∀ i r, 2 ≤ i → i + 3 ≤ l.length → l[i]? = some r →
      (restore_move_valid l)[i]? = some r) ∧
    (∀ i r, (restore_move_valid l)[i]? = some r →
      (i ≤ 1 ∨ l.length ≤ i + 2) →
      ((r.up = true ↔ 0 < i) ∧ (r.down = true ↔ i + 1 < l.length))) := by
  refine ⟨?_, restore_middle_untouched l, restore_boundary_flags l⟩
  intro hlen i r hget
  have hilt : i < l.length := by
    by_contra hc
    have hnone : (restore_move_valid l)[i]? = none :=
      List.getElem?_eq_none_iff.mpr (by rw [length_restore]; omega)
    rw [hnone] at hget
    cases hget
  rw [length_restore]
  exact restore_boundary_flags l i r hget (by omega)

/-- Witness for C6: the amended theorem instantiated on three fresh rows. -/
theorem restore_move_valid_up_down_witness :
    rowFlagsCorrect (restore_move_valid (List.replicate 3 TCRow.new)) :=
  (restore_move_valid_up_down (List.replicate 3 TCRow.new)).1 (by decide)

/-! ## C4: `AddReceipt` duplicate handling (src/main.rs, src/add_duplicate_alert.rs)

The SQLite `Receipt` table is abstracted as the list of its `(store, date)`
rows; `query_row(...).optional()` on the existence check becomes a list
search, and `conn.execute("INSERT ...")` appends a row.  A `DateTime` is
represented by its `%F` rendering, which is all the handlers consume.
Indexing `self.ui.stores.0[store_idx as usize]` with a stale index panics,
modelled as `none`. -/

/-- `StoreRow` (src/main.rs). -/
structure StoreRow where
  id : Int
  name : String
  location : String
deriving DecidableEq, Repr

/-- A `DateTime` as consumed by the receipt handlers: its `%F` rendering. -/
structure RDateTime where
  fmtF : String
deriving DecidableEq, Repr

/-- The rows `(store, date)` of the `Receipt` table. -/
abbrev ReceiptTable := List (Int × String)

/-- `add_duplicate_alert::WarningOrigin`. -/
inductive WarningOrigin where
  | receipt (store : StoreRow) (date : RDateTime)
  | store (name : String) (location : String)
deriving DecidableEq, Repr

/-- `add_duplicate_alert::Dialog` state. -/
structure DialogState where
  hidden : Bool
  origin : WarningOrigin
deriving DecidableEq, Repr

/-- `add_duplicate_alert::DialogMsg`. -/
inductive DialogMsgM where
  | show (origin : WarningOrigin)
  | accept
  | cancel
deriving DecidableEq, Repr

/-- The parent messages the dialog can send back to `App` on Accept. -/
inductive ParentMsgM where
  | forceAddReceipt (store_id : Int) (date : String)
  | forceAddStore (name : String) (location : String)
deriving DecidableEq, Repr

/-- The `Receipt` argument of `Msg::AddReceipt`: the selected store index (if
any) and the picked date. -/
structure ReceiptIn where
  store_idx : Option Int
  date : RDateTime
deriving DecidableEq, Repr

/-- The fragment of `App` state the receipt handlers touch: the connection
with its `Receipt` rows, the store list, and the alert dialog. -/
structure AppC4 where
  conn : Option ReceiptTable
  stores : List StoreRow
  dialog : DialogState
deriving DecidableEq, Repr

/-- The `Msg::AddReceipt` arm of `App::update` (src/main.rs lines 768-806):
with a connection and a selected store, look the store up, check for an
existing `(store, date)` row; on a hit only show the duplicate dialog, else
insert the row and reload the receipts (the returned `Bool`). -/
def appAddReceipt (a : AppC4) (rin : ReceiptIn) :
    Option (AppC4 × List DialogMsgM × Bool) :=
  match a.conn, rin.store_idx with
  | some db, some sidx =>
      if sidx < 0 then none
      else
        match a.stores[sidx.toNat]? with
        | none => none
        | some st =>
            if db.any (fun rc => rc.1 == st.id && rc.2 == rin.date.fmtF) then
              some (a, [DialogMsgM.show (WarningOrigin.receipt st rin.date)], false)
            else
              some ({ a with conn := some (db ++ [(st.id, rin.date.fmtF)]) },
                [], true)
  | _, _ => some (a, [], false)

/-- The `Msg::ForceAddReceipt` arm of `App::update` (src/main.rs lines
807-818): insert unconditionally and reload. -/
def appForceAddReceipt (a : AppC4) (store_id : Int) (date : String) :
    AppC4 × Bool :=
  match a.conn with
  | some db => ({ a with conn := some (db ++ [(store_id, date)]) }, true)
  | none => (a, false)

/-- `Dialog::update` (src/add_duplicate_alert.rs lines 42-77), with the
messages sent to the parent made explicit. -/
def dialogUpdate (d : DialogState) : DialogMsgM → DialogState × List ParentMsgM
  | .show origin => ({ hidden := false, origin := origin }, [])
  | .accept =>
      match d.origin with
      | .receipt st date =>
          ({ d with hidden := true }, [.forceAddReceipt st.id date.fmtF])
      | .store n loc =>
          ({ d with hidden := true }, [.forceAddStore n loc])
  | .cancel => ({ d with hidden := true }, [])

/-- C4: with a database connected and a store selected, `AddReceipt` with an
already-present `(store id, %F date)` row leaves the state unchanged and only
shows the duplicate dialog; with no such row it appends the row and reloads;
the dialog's Accept emits `ForceAddReceipt` with the same store id and `%F`
date, and `ForceAddReceipt` inserts unconditionally. -/
theorem addReceipt_duplicate_check (a : AppC4) (db : ReceiptTable)
    (rin : ReceiptIn) (st : StoreRow) (sidx : Int)
    (hconn : a.conn = some db)
    (hsel : rin.store_idx = some sidx)
    (hs0 : ¬ sidx < 0)
    (hstore : a.stores[sidx.toNat]? = some st) :
    ((db.any (fun rc => rc.1 == st.id && rc.2 == rin.date.fmtF)) = true →
      appAddReceipt a rin =
        some (a, [DialogMsgM.show (WarningOrigin.receipt st rin.date)], false)) ∧
    ((db.any (fun rc => rc.1 == st.id && rc.2 == rin.date.fmtF)) = false →
      appAddReceipt a rin =
        some ({ a with conn := some (db ++ [(st.id, rin.date.fmtF)]) }, [], true)) ∧
    (dialogUpdate ⟨false, WarningOrigin.receipt st rin.date⟩ DialogMsgM.accept =
      (⟨true, WarningOrigin.receipt st rin.date⟩,
        [ParentMsgM.forceAddReceipt st.id rin.date.fmtF])) ∧
    (∀ a2 db2, a2.conn = some db2 →
      appForceAddReceipt a2 st.id rin.date.fmtF =
        ({ a2 with conn := some (db2 ++ [(st.id, rin.date.fmtF)]) }, true)) := by
  refine ⟨?_, ?_, rfl, ?_⟩
  · intro hdup
    simp only [appAddReceipt, hconn, hsel, hstore, if_neg hs0, hdup, if_true]
  · intro hdup
    simp only [appAddReceipt, hconn, hsel, hstore, if_neg hs0, hdup,
      Bool.false_eq_true, if_false]
  · intro a2 db2 h2
    simp only [appForceAddReceipt, h2]

/-- Concrete app state used to instantiate the C4 theorem: one receipt for
store 1 on 2024-01-02 already recorded. -/
def aC4w : AppC4 :=
  ⟨some [(1, "2024-01-02")], [⟨1, "A", "B"⟩],
    ⟨true, WarningOrigin.store "" ""⟩⟩

/-- Concrete `AddReceipt` argument used to instantiate the C4 theorem. -/
def rinC4w : ReceiptIn := ⟨some 0, ⟨"2024-01-02"⟩⟩

/-- Witness for C4: adding the already-recorded receipt only shows the
dialog. -/
theorem addReceipt_duplicate_check_witness :
    appAddReceipt aC4w rinC4w =
      some (aC4w,
        [DialogMsgM.show (WarningOrigin.receipt ⟨1, "A", "B"⟩ rinC4w.date)],
        false) :=
  (addReceipt_duplicate_check aC4w [(1, "2024-01-02")] rinC4w ⟨1, "A", "B"⟩ 0
    rfl rfl (by decide) rfl).1 (by decide)
